import Mathlib

/-!
Verification of the BC breweries scraper (`brewery-scraper.py` and
`brewery-menu-scraper.py`).  Strings are modelled as `List Char`, Python
dictionaries as association lists, JSON values by the inductive `JVal`
(the fragment the scraper's records use: strings, arrays, objects), and
every network or file access as an explicit oracle parameter.
-/

namespace BCB

/-- Characters of a string literal. -/
def chars (s : String) : List Char := s.toList

/-- The sentinel `"N/A"` used throughout the scraper for absent data. -/
def naStr : List Char := chars "N/A"

/-- Python `str.isspace` / `str.strip` whitespace, restricted to ASCII:
space, tab, newline, carriage return, vertical tab, form feed. -/
def pyIsSpace (c : Char) : Bool :=
  c = ' ' || c = '\t' || c = '\n' || c = '\r' || c = '\x0b' || c = '\x0c'

/-- Python `str.strip()`: drop leading and trailing whitespace. -/
def pyStrip (s : List Char) : List Char :=
  ((s.dropWhile pyIsSpace).reverse.dropWhile pyIsSpace).reverse

/-- Python `str.split(sep)` for a one-character separator: always returns a
non-empty list of segments (`"".split(",") == [""]`). -/
def splitOn (sep : Char) : List Char → List (List Char)
  | [] => [[]]
  | c :: cs =>
    if c = sep then [] :: splitOn sep cs
    else
      match splitOn sep cs with
      | [] => [[c]]
      | p :: ps => (c :: p) :: ps

/-- `clean_phone_number` from `brewery-scraper.py`:
`re.sub(r'[^0-9]', '', phone)` keeps exactly the ASCII digit characters of
the input, in their original order. -/
def clean_phone_number (phone : List Char) : List Char :=
  phone.filter Char.isDigit

/-- C4: for every input string, the output of `clean_phone_number` consists
only of digit characters, the digits appear in the same relative order as in
the input (the output is a sublist of the input), and the number of digits in
the output equals the number of digit characters in the input. -/
theorem clean_phone_number_digits (s : List Char) :
    (∀ c ∈ clean_phone_number s, c.isDigit) ∧
    (clean_phone_number s).Sublist s ∧
    (clean_phone_number s).length = s.countP Char.isDigit := by
  refine ⟨?_, List.filter_sublist s, ?_⟩
  · intro c hc
    exact (List.mem_filter.mp hc).2
  · exact (List.countP_eq_length_filter _ _).symm

/-- C9: `clean_phone_number` is idempotent. -/
theorem clean_phone_number_idem (s : List Char) :
    clean_phone_number (clean_phone_number s) = clean_phone_number s := by
  simp [clean_phone_number, List.filter_filter]

/-! ## The postal-code regular expression

`parse_address` scans the last comma-separated segment with
`re.search(r'[A-Za-z]\d[A-Za-z]\s?\d[A-Za-z]\d', last_part)`.
`reSearchPostal` models that search: it tries each start position from the
left; at a position it first tries the greedy branch (`\s?` consuming one
whitespace character) and falls back to the empty branch, exactly as the
backtracking engine does. -/

/-- `[A-Za-z]` of the pattern. -/
def isAsciiLetter (c : Char) : Bool :=
  ('A' ≤ c && c ≤ 'Z') || ('a' ≤ c && c ≤ 'z')

/-- Match of `\s?\d[A-Za-z]\d` at the head of `rest`: the greedy branch
(whitespace consumed) is tried first, then the empty branch. -/
def postalTail (rest : List Char) : Option (List Char) :=
  match rest with
  | d :: e :: f :: g :: _ =>
    if pyIsSpace d && e.isDigit && isAsciiLetter f && g.isDigit then
      some [d, e, f, g]
    else
      match rest with
      | d :: e :: f :: _ =>
        if d.isDigit && isAsciiLetter e && f.isDigit then some [d, e, f] else none
      | _ => none
  | d :: e :: f :: _ =>
    if d.isDigit && isAsciiLetter e && f.isDigit then some [d, e, f] else none
  | _ => none

/-- Match of the whole pattern anchored at the head of `s`. -/
def postalAt (s : List Char) : Option (List Char) :=
  match s with
  | a :: b :: c :: rest =>
    if isAsciiLetter a && b.isDigit && isAsciiLetter c then
      (postalTail rest).map (fun t => a :: b :: c :: t)
    else none
  | _ => none

/-- `re.search` for the postal-code pattern: first match in left-to-right
order of start positions. -/
def reSearchPostal : List Char → Option (List Char)
  | [] => none
  | c :: cs =>
    match postalAt (c :: cs) with
    | some m => some m
    | none => reSearchPostal cs

/-! ## Dictionaries

Python `dict`s are modelled as association lists: lookup returns the first
binding, assignment replaces the first binding in place (keeping its
position) or appends a new one, mirroring insertion-order semantics. -/

/-- `d[k]` / `k in d` lookup. -/
def dGet {κ α : Type} [DecidableEq κ] (k : κ) : List (κ × α) → Option α
  | [] => none
  | (k', v) :: rest => if k' = k then some v else dGet k rest

/-- `d[k] = v`: replace the first binding of `k` in place, else append. -/
def dSet {κ α : Type} [DecidableEq κ] (k : κ) (v : α) :
    List (κ × α) → List (κ × α)
  | [] => [(k, v)]
  | (k', v') :: rest =>
    if k' = k then (k, v) :: rest else (k', v') :: dSet k v rest

/-- `k in d`. -/
def dHas {κ α : Type} [DecidableEq κ] (k : κ) (d : List (κ × α)) : Bool :=
  (dGet k d).isSome

/-- `d.update(u)`: assign every binding of `u` into `d`, in order. -/
def dUpdate {κ α : Type} [DecidableEq κ] (d u : List (κ × α)) : List (κ × α) :=
  u.foldl (fun acc p => dSet p.1 p.2 acc) d

/-! ## JSON values and brewery records -/

/-- The JSON fragment the scraper's records live in: strings, arrays and
objects (string keys).  This is the value space of every field the code
produces: strings and lists of strings. -/
inductive JVal : Type where
  | jstr : List Char → JVal
  | jarr : List JVal → JVal
  | jobj : List (List Char × JVal) → JVal

mutual

/-- Structural equality of JSON values. -/
def JVal.beq : JVal → JVal → Bool
  | .jstr a, .jstr b => decide (a = b)
  | .jarr a, .jarr b => JVal.beqArr a b
  | .jobj a, .jobj b => JVal.beqObj a b
  | _, _ => false

/-- Structural equality of JSON arrays. -/
def JVal.beqArr : List JVal → List JVal → Bool
  | [], [] => true
  | x :: xs, y :: ys => JVal.beq x y && JVal.beqArr xs ys
  | _, _ => false

/-- Structural equality of JSON objects. -/
def JVal.beqObj : List (List Char × JVal) → List (List Char × JVal) → Bool
  | [], [] => true
  | (k, v) :: xs, (l, w) :: ys => decide (k = l) && JVal.beq v w && JVal.beqObj xs ys
  | _, _ => false

end

theorem JVal.beq_iff_aux (n : Nat) :
    (∀ a b : JVal, sizeOf a ≤ n → (JVal.beq a b = true ↔ a = b)) ∧
    (∀ xs ys : List JVal, sizeOf xs ≤ n → (JVal.beqArr xs ys = true ↔ xs = ys)) ∧
    (∀ ps qs : List (List Char × JVal), sizeOf ps ≤ n →
      (JVal.beqObj ps qs = true ↔ ps = qs)) := by
  induction n with
  | zero =>
    refine ⟨fun a => ?_, fun xs => ?_, fun ps => ?_⟩
    · cases a <;> (intro b h; simp at h)
    · cases xs with
      | nil => intro ys _; cases ys <;> simp [JVal.beqArr]
      | cons x xs => intro ys h; simp at h
    · cases ps with
      | nil => intro qs _; cases qs <;> simp [JVal.beqObj]
      | cons p ps => intro qs h; simp at h
  | succ n ih =>
    obtain ⟨ihv, iha, iho⟩ := ih
    refine ⟨fun a b h => ?_, fun xs ys h => ?_, fun ps qs h => ?_⟩
    · cases a <;> cases b <;> simp [JVal.beq]
      case jarr.jarr xs ys =>
        simp at h
        exact iha xs ys (by omega)
      case jobj.jobj ps qs =>
        simp at h
        exact iho ps qs (by omega)
    · cases xs with
      | nil => cases ys <;> simp [JVal.beqArr]
      | cons x xs =>
        cases ys with
        | nil => simp [JVal.beqArr]
        | cons y ys =>
          simp only [List.cons.sizeOf_spec] at h
          simp only [JVal.beqArr, Bool.and_eq_true, List.cons.injEq]
          rw [ihv x y (by omega), iha xs ys (by omega)]
    · cases ps with
      | nil => cases qs <;> simp [JVal.beqObj]
      | cons p ps =>
        cases qs with
        | nil => cases p; simp [JVal.beqObj]
        | cons q qs =>
          obtain ⟨k, v⟩ := p
          obtain ⟨l, w⟩ := q
          simp only [List.cons.sizeOf_spec, Prod.mk.sizeOf_spec] at h
          simp only [JVal.beqObj, Bool.and_eq_true, decide_eq_true_eq,
            List.cons.injEq, Prod.mk.injEq]
          rw [ihv v w (by omega), iho ps qs (by omega)]

theorem JVal.beq_iff (a b : JVal) : JVal.beq a b = true ↔ a = b :=
  (JVal.beq_iff_aux (sizeOf a)).1 a b le_rfl

instance : DecidableEq JVal := fun a b =>
  decidable_of_iff (JVal.beq a b = true) (JVal.beq_iff a b)

/-- A brewery record: a Python dict from field names to JSON values. -/
abbrev Rec := List (List Char × JVal)

def kName : List Char := chars "name"
def kCity : List Char := chars "city"
def kBreweryType : List Char := chars "brewery_type"
def kUrl : List Char := chars "url"
def kAddress : List Char := chars "address"
def kPostalCode : List Char := chars "postal_code"
def kStateProvince : List Char := chars "state_province"
def kCountry : List Char := chars "country"
def kPhone : List Char := chars "phone"
def kWebsiteUrl : List Char := chars "website_url"
def kSocialMedia : List Char := chars "social_media"
def kMenuUrl : List Char := chars "menu_url"

/-- `parse_address` from `brewery-scraper.py`.  Builds the components dict
(`address`, `postal_code`, `state_province`, `country`, all `"N/A"`), fixes
`state_province = "BC"` and `country = "Canada"`, splits on commas stripping
each part, takes the first part (stripped again) as the street address, and
only when there is more than one part scans the last part for a Canadian
postal code, storing the stripped match. -/
def parse_address (full_address : List Char) : Rec :=
  let comps0 : Rec :=
    [(kAddress, .jstr naStr), (kPostalCode, .jstr naStr),
     (kStateProvince, .jstr naStr), (kCountry, .jstr naStr)]
  let comps1 := dSet kStateProvince (.jstr (chars "BC")) comps0
  let comps2 := dSet kCountry (.jstr (chars "Canada")) comps1
  let parts := (splitOn ',' full_address).map pyStrip
  let comps3 :=
    match parts with
    | [] => comps2
    | p :: _ => dSet kAddress (.jstr (pyStrip p)) comps2
  if parts.length > 1 then
    match reSearchPostal (parts.getLastD []) with
    | some m => dSet kPostalCode (.jstr (pyStrip m)) comps3
    | none => comps3
  else comps3

/-! ## Dictionary lemmas -/

theorem dGet_cons_eq {κ α : Type} [DecidableEq κ] (k : κ) (v : α)
    (rest : List (κ × α)) : dGet k ((k, v) :: rest) = some v := by
  simp [dGet]

theorem dGet_cons_ne {κ α : Type} [DecidableEq κ] {k' k : κ} (v : α)
    (rest : List (κ × α)) (h : k' ≠ k) :
    dGet k ((k', v) :: rest) = dGet k rest := by
  simp [dGet, h]

theorem dGet_dSet_eq {κ α : Type} [DecidableEq κ] (k : κ) (v : α) :
    ∀ d : List (κ × α), dGet k (dSet k v d) = some v := by
  intro d
  induction d with
  | nil => simp [dSet, dGet]
  | cons p rest ih =>
    obtain ⟨k', v'⟩ := p
    by_cases h : k' = k
    · subst h; simp [dSet, dGet]
    · simp [dSet, dGet, h, ih]

theorem dGet_dSet_ne {κ α : Type} [DecidableEq κ] {k' k : κ} (v : α)
    (h : k' ≠ k) : ∀ d : List (κ × α), dGet k (dSet k' v d) = dGet k d := by
  intro d
  induction d with
  | nil => simp [dSet, dGet, h]
  | cons p rest ih =>
    obtain ⟨k'', v''⟩ := p
    by_cases h2 : k'' = k'
    · subst h2; simp [dSet, dGet, h]
    · by_cases h3 : k'' = k
      · subst h3; simp [dSet, dGet, h2]
      · simp [dSet, dGet, h2, h3, ih]

/-! ## `pyStrip` lemmas -/

theorem dropWhile_head_false {α : Type} (p : α → Bool) :
    ∀ (l : List α) (c : α) (cs : List α), l.dropWhile p = c :: cs → p c = false := by
  intro l
  induction l with
  | nil => intro c cs h; simp [List.dropWhile] at h
  | cons x xs ih =>
    intro c cs h
    by_cases hx : p x
    · rw [List.dropWhile_cons_of_pos hx] at h
      exact ih c cs h
    · rw [List.dropWhile_cons_of_neg hx] at h
      injection h with h1 _
      subst h1
      simpa using hx

theorem pyStrip_head_false (s : List Char) (c : Char) (cs : List Char)
    (h : pyStrip s = c :: cs) : pyIsSpace c = false := by
  obtain ⟨t, ht⟩ := List.dropWhile_suffix (l := (s.dropWhile pyIsSpace).reverse) pyIsSpace
  have hRne : (s.dropWhile pyIsSpace).reverse.dropWhile pyIsSpace ≠ [] := by
    intro h0
    rw [pyStrip, h0] at h
    simp at h
  have h1 : ((s.dropWhile pyIsSpace).reverse.dropWhile pyIsSpace).getLast? = some c := by
    rw [← List.head?_reverse]
    rw [show ((s.dropWhile pyIsSpace).reverse.dropWhile pyIsSpace).reverse = c :: cs from h]
    rfl
  have h2 : (s.dropWhile pyIsSpace).reverse.getLast? = some c := by
    rw [← ht, List.getLast?_append_of_ne_nil _ hRne, h1]
  have h3 : (s.dropWhile pyIsSpace).head? = some c := by
    rw [← List.getLast?_reverse]
    exact h2
  cases hA : s.dropWhile pyIsSpace with
  | nil => rw [hA] at h3; simp at h3
  | cons a as =>
    rw [hA] at h3
    simp at h3
    subst h3
    exact dropWhile_head_false pyIsSpace s a as hA

theorem dropWhile_pyStrip (s : List Char) :
    (pyStrip s).dropWhile pyIsSpace = pyStrip s := by
  cases h : pyStrip s with
  | nil => simp
  | cons c cs =>
    rw [List.dropWhile_cons_of_neg]
    simp [pyStrip_head_false s c cs h]

theorem pyStrip_idem (s : List Char) : pyStrip (pyStrip s) = pyStrip s := by
  show ((List.dropWhile pyIsSpace (pyStrip s)).reverse.dropWhile pyIsSpace).reverse
      = pyStrip s
  rw [dropWhile_pyStrip]
  have h2 : (pyStrip s).reverse = (s.dropWhile pyIsSpace).reverse.dropWhile pyIsSpace :=
    List.reverse_reverse _
  rw [h2, List.dropWhile_idempotent]
  rfl

/-! ## `splitOn` lemmas -/

theorem splitOn_ne_nil (sep : Char) (s : List Char) : splitOn sep s ≠ [] := by
  induction s with
  | nil => simp [splitOn]
  | cons c cs ih =>
    rw [splitOn]
    by_cases h : c = sep
    · simp [h]
    · simp only [h, if_false]
      cases hs : splitOn sep cs <;> simp

theorem splitOn_of_not_mem (sep : Char) (s : List Char) (h : sep ∉ s) :
    splitOn sep s = [s] := by
  induction s with
  | nil => rfl
  | cons c cs ih =>
    have hc : ¬c = sep := fun e => h (e ▸ List.mem_cons_self c cs)
    have hcs : sep ∉ cs := fun m => h (List.mem_cons_of_mem _ m)
    rw [splitOn]
    simp only [hc, if_false]
    rw [ih hcs]

theorem splitOn_length_gt_one (sep : Char) (s : List Char) (h : sep ∈ s) :
    (splitOn sep s).length > 1 := by
  induction s with
  | nil => simp at h
  | cons c cs ih =>
    by_cases hc : c = sep
    · subst hc
      rw [splitOn, if_pos rfl]
      have := List.length_pos.mpr (splitOn_ne_nil c cs)
      simp only [List.length_cons]
      omega
    · have hcs : sep ∈ cs := by
        cases List.mem_cons.mp h with
        | inl h0 => exact absurd h0.symm hc
        | inr h0 => exact h0
      rw [splitOn, if_neg hc]
      cases hs : splitOn sep cs with
      | nil => exact absurd hs (splitOn_ne_nil sep cs)
      | cons p ps =>
        show ((c :: p) :: ps).length > 1
        have := ih hcs
        rw [hs] at this
        simpa using this


/-! ## Characterizing `parse_address` -/

theorem parse_address_single (full p : List Char)
    (hp : (splitOn ',' full).map pyStrip = [p]) :
    parse_address full =
      [(kAddress, .jstr (pyStrip p)), (kPostalCode, .jstr naStr),
       (kStateProvince, .jstr (chars "BC")), (kCountry, .jstr (chars "Canada"))] := by
  unfold parse_address
  rw [hp]
  rfl

theorem parse_address_multi_found (full p m : List Char) (rest : List (List Char))
    (hp : (splitOn ',' full).map pyStrip = p :: rest) (hne : rest ≠ [])
    (hm : reSearchPostal ((p :: rest).getLastD []) = some m) :
    parse_address full =
      [(kAddress, .jstr (pyStrip p)), (kPostalCode, .jstr (pyStrip m)),
       (kStateProvince, .jstr (chars "BC")), (kCountry, .jstr (chars "Canada"))] := by
  unfold parse_address
  rw [hp]
  have hlen : (p :: rest).length > 1 := by
    cases rest with
    | nil => exact absurd rfl hne
    | cons q qs => simp
  rw [if_pos hlen, hm]
  rfl

theorem parse_address_multi_none (full p : List Char) (rest : List (List Char))
    (hp : (splitOn ',' full).map pyStrip = p :: rest) (hne : rest ≠ [])
    (hm : reSearchPostal ((p :: rest).getLastD []) = none) :
    parse_address full =
      [(kAddress, .jstr (pyStrip p)), (kPostalCode, .jstr naStr),
       (kStateProvince, .jstr (chars "BC")), (kCountry, .jstr (chars "Canada"))] := by
  unfold parse_address
  rw [hp]
  have hlen : (p :: rest).length > 1 := by
    cases rest with
    | nil => exact absurd rfl hne
    | cons q qs => simp
  rw [if_pos hlen, hm]
  rfl

/-! ## The match of the postal pattern is its own strip -/

theorem pyIsSpace_false_of_letter (c : Char) (h : isAsciiLetter c = true) :
    pyIsSpace c = false := by
  cases hs : pyIsSpace c
  · rfl
  · exfalso
    simp only [pyIsSpace, Bool.or_eq_true, decide_eq_true_eq] at hs
    rcases hs with ((((rfl | rfl) | rfl) | rfl) | rfl) | rfl <;>
      exact absurd h (by decide)

theorem pyIsSpace_false_of_digit (c : Char) (h : c.isDigit = true) :
    pyIsSpace c = false := by
  cases hs : pyIsSpace c
  · rfl
  · exfalso
    simp only [pyIsSpace, Bool.or_eq_true, decide_eq_true_eq] at hs
    rcases hs with ((((rfl | rfl) | rfl) | rfl) | rfl) | rfl <;>
      exact absurd h (by decide)

theorem postalTail_shape (rest t : List Char) (h : postalTail rest = some t) :
    ∃ mid g, t = mid ++ [g] ∧ g.isDigit = true := by
  rcases rest with _ | ⟨d, _ | ⟨e, _ | ⟨f, _ | ⟨g, tl⟩⟩⟩⟩
  · simp [postalTail] at h
  · simp [postalTail] at h
  · simp [postalTail] at h
  · rw [show postalTail [d, e, f] =
        if d.isDigit && isAsciiLetter e && f.isDigit then some [d, e, f]
        else none from rfl] at h
    split_ifs at h with hc
    · injection h with h
      subst h
      simp only [Bool.and_eq_true] at hc
      exact ⟨[d, e], f, rfl, hc.2⟩
  · rw [show postalTail (d :: e :: f :: g :: tl) =
        if pyIsSpace d && e.isDigit && isAsciiLetter f && g.isDigit then
          some [d, e, f, g]
        else if d.isDigit && isAsciiLetter e && f.isDigit then some [d, e, f]
        else none from rfl] at h
    split_ifs at h with h1 h2
    · injection h with h
      subst h
      simp only [Bool.and_eq_true] at h1
      exact ⟨[d, e, f], g, rfl, h1.2⟩
    · injection h with h
      subst h
      simp only [Bool.and_eq_true] at h2
      exact ⟨[d, e], f, rfl, h2.2⟩

theorem postalAt_shape (s m : List Char) (h : postalAt s = some m) :
    ∃ a mid g, m = a :: (mid ++ [g]) ∧ isAsciiLetter a = true ∧ g.isDigit = true := by
  unfold postalAt at h
  split at h
  · rename_i a b c rest
    split at h
    · rename_i hcond
      simp only [Bool.and_eq_true] at hcond
      cases ht : postalTail rest with
      | none => rw [ht] at h; simp at h
      | some t =>
        rw [ht] at h
        injection h with h
        obtain ⟨mid, g, rfl, hg⟩ := postalTail_shape rest t ht
        exact ⟨a, b :: c :: mid, g, by rw [← h]; rfl, hcond.1.1, hg⟩
    · exact absurd h (by simp)
  · exact absurd h (by simp)

theorem reSearchPostal_from_postalAt (s m : List Char)
    (h : reSearchPostal s = some m) : ∃ s', postalAt s' = some m := by
  induction s with
  | nil => simp [reSearchPostal] at h
  | cons c cs ih =>
    rw [reSearchPostal] at h
    cases ha : postalAt (c :: cs) with
    | some m' =>
      rw [ha] at h
      injection h with h
      subst h
      exact ⟨c :: cs, ha⟩
    | none =>
      rw [ha] at h
      exact ih h

theorem pyStrip_of_clean_ends (a g : Char) (mid : List Char)
    (ha : pyIsSpace a = false) (hg : pyIsSpace g = false) :
    pyStrip (a :: (mid ++ [g])) = a :: (mid ++ [g]) := by
  have h1 : (a :: (mid ++ [g])).dropWhile pyIsSpace = a :: (mid ++ [g]) :=
    List.dropWhile_cons_of_neg (by simp [ha])
  have hrev : (a :: (mid ++ [g])).reverse = g :: (mid.reverse ++ [a]) := by
    rw [List.reverse_cons, List.reverse_append]
    rfl
  have h2 : (g :: (mid.reverse ++ [a])).dropWhile pyIsSpace
      = g :: (mid.reverse ++ [a]) :=
    List.dropWhile_cons_of_neg (by simp [hg])
  unfold pyStrip
  rw [h1, hrev, h2, ← hrev, List.reverse_reverse]

/-- The match returned by the postal-code search strips to itself: it starts
with a letter and ends with a digit, so it carries no surrounding
whitespace. -/
theorem reSearchPostal_strip (s m : List Char) (h : reSearchPostal s = some m) :
    pyStrip m = m := by
  obtain ⟨s', hs'⟩ := reSearchPostal_from_postalAt s m h
  obtain ⟨a, mid, g, rfl, hla, hdg⟩ := postalAt_shape s' m hs'
  exact pyStrip_of_clean_ends a g mid (pyIsSpace_false_of_letter a hla)
    (pyIsSpace_false_of_digit g hdg)

/-! ## C2 and C8: `parse_address` -/

/-- C2 (amended: the postal-code scan only runs when the address string
contains at least one comma; see the counterexample for the comma-free
case): for every address string containing a comma, when the
regular-expression search over the last comma-separated segment (segments
are stripped when split) finds a match, `parse_address` returns exactly the
matching substring as `postal_code`, regardless of surrounding whitespace;
when it finds no match, `postal_code` stays `"N/A"`; and the first
comma-separated segment, trimmed, is returned as the street address. -/
theorem parse_address_spec (full : List Char) (h : ',' ∈ full) :
    (∀ m, reSearchPostal (((splitOn ',' full).map pyStrip).getLastD []) = some m →
      dGet kPostalCode (parse_address full) = some (.jstr m)) ∧
    (reSearchPostal (((splitOn ',' full).map pyStrip).getLastD []) = none →
      dGet kPostalCode (parse_address full) = some (.jstr naStr)) ∧
    dGet kAddress (parse_address full)
      = some (.jstr (pyStrip ((splitOn ',' full).headD []))) := by
  cases hS : splitOn ',' full with
  | nil => exact absurd hS (splitOn_ne_nil ',' full)
  | cons p ps =>
    cases hps : ps with
    | nil =>
      exfalso
      have hlen := splitOn_length_gt_one ',' full h
      rw [hS, hps] at hlen
      simp at hlen
    | cons q qs =>
      subst hps
      have hp : (splitOn ',' full).map pyStrip
          = pyStrip p :: pyStrip q :: List.map pyStrip qs := by
        rw [hS]
        rfl
      have hne : pyStrip q :: List.map pyStrip qs ≠ [] := by simp
      refine ⟨?_, ?_, ?_⟩
      · intro m hm
        simp only [List.map_cons] at hm
        rw [parse_address_multi_found full (pyStrip p) m
          (pyStrip q :: List.map pyStrip qs) hp hne hm]
        rw [dGet_cons_ne _ _ (by decide), dGet_cons_eq]
        rw [reSearchPostal_strip _ m hm]
      · intro hm
        simp only [List.map_cons] at hm
        rw [parse_address_multi_none full (pyStrip p)
          (pyStrip q :: List.map pyStrip qs) hp hne hm]
        rw [dGet_cons_ne _ _ (by decide), dGet_cons_eq]
      · cases hm : reSearchPostal
            ((pyStrip p :: pyStrip q :: List.map pyStrip qs).getLastD []) with
        | some m =>
          rw [parse_address_multi_found full (pyStrip p) m
            (pyStrip q :: List.map pyStrip qs) hp hne hm]
          rw [dGet_cons_eq, pyStrip_idem]
          rfl
        | none =>
          rw [parse_address_multi_none full (pyStrip p)
            (pyStrip q :: List.map pyStrip qs) hp hne hm]
          rw [dGet_cons_eq, pyStrip_idem]
          rfl

/-- Witness for C2: the spec's own end-to-end example address. -/
theorem parse_address_spec_witness :
    (',' ∈ chars "123 Main St, Vancouver, BC V5K 0A1") ∧
    dGet kPostalCode (parse_address (chars "123 Main St, Vancouver, BC V5K 0A1"))
      = some (.jstr (chars "V5K 0A1")) := by
  refine ⟨by decide, ?_⟩
  exact (parse_address_spec _ (by decide)).1 (chars "V5K 0A1") (by decide)

/-- Counterexample to C2 as stated: a comma-free address whose last (only)
comma-separated segment contains a valid postal code still gets
`postal_code = "N/A"`, because the scan runs only when splitting yields more
than one segment. -/
theorem parse_address_spec_cex :
    reSearchPostal (((splitOn ',' (chars "V5K 0A1")).map pyStrip).getLastD [])
      = some (chars "V5K 0A1") ∧
    dGet kPostalCode (parse_address (chars "V5K 0A1")) = some (.jstr naStr) ∧
    JVal.jstr naStr ≠ JVal.jstr (chars "V5K 0A1") := by
  exact ⟨by decide, by decide, by decide⟩

/-- C8: for every address string containing no comma, `parse_address`
returns the whole trimmed string as the street address and `postal_code`
stays `"N/A"` (the scan never runs, whatever the string contains). -/
theorem parse_address_no_comma (full : List Char) (h : ',' ∉ full) :
    dGet kAddress (parse_address full) = some (.jstr (pyStrip full)) ∧
    dGet kPostalCode (parse_address full) = some (.jstr naStr) := by
  have hs : (splitOn ',' full).map pyStrip = [pyStrip full] := by
    rw [splitOn_of_not_mem ',' full h]
    rfl
  rw [parse_address_single full (pyStrip full) hs]
  constructor
  · rw [dGet_cons_eq, pyStrip_idem]
  · rw [dGet_cons_ne _ _ (by decide), dGet_cons_eq]

/-- Witness for C8: a comma-free address that does contain a valid postal
code, which is nevertheless not extracted. -/
theorem parse_address_no_comma_witness :
    (',' ∉ chars "123 Main St V5K 0A1") ∧
    (reSearchPostal (pyStrip (chars "123 Main St V5K 0A1"))).isSome = true ∧
    dGet kAddress (parse_address (chars "123 Main St V5K 0A1"))
      = some (.jstr (pyStrip (chars "123 Main St V5K 0A1"))) ∧
    dGet kPostalCode (parse_address (chars "123 Main St V5K 0A1"))
      = some (.jstr naStr) := by
  refine ⟨by decide, by decide, ?_, ?_⟩
  · exact (parse_address_no_comma _ (by decide)).1
  · exact (parse_address_no_comma _ (by decide)).2

/-! ## C3: `filter_features` -/

/-- `filter_features` from `brewery-scraper.py`.  The allow-list is loaded
from the side file `features_to_keep.json` inside the function; the file
access is modelled by the `loaded` parameter: `none` is a failed load (the
`except` branch prints and returns `[]`), `some allowed` a successful
`json.load` of a list of strings.  The comprehension keeps the input tags
that are members of the allow-list, in input order. -/
def filter_features (loaded : Option (List (List Char)))
    (features : List (List Char)) : List (List Char) :=
  match loaded with
  | none => []
  | some allowed => features.filter (fun f => decide (f ∈ allowed))

/-- C3 (amended: the filter preserves the *input* order, not the allow-list
order; see the counterexample): `filter_features` returns exactly the input
tags that are in the allow-list, in input order (a sublist of the input, so
it never invents a tag), and returns the empty sequence when the allow-list
cannot be loaded. -/
theorem filter_features_spec (allowed features : List (List Char)) :
    filter_features none features = [] ∧
    (filter_features (some allowed) features).Sublist features ∧
    (∀ f, f ∈ filter_features (some allowed) features ↔
      f ∈ features ∧ f ∈ allowed) := by
  refine ⟨rfl, List.filter_sublist _, fun f => ?_⟩
  simp [filter_features, List.mem_filter]

/-- Counterexample to C3 as stated: with allow-list `["Brewery", "Taproom"]`
and input `["Taproom", "Brewery"]` (both tags allowed), the result keeps the
input order `["Taproom", "Brewery"]`, not the allow-list order. -/
theorem filter_features_cex :
    filter_features (some [chars "Brewery", chars "Taproom"])
        [chars "Taproom", chars "Brewery"]
      = [chars "Taproom", chars "Brewery"] ∧
    filter_features (some [chars "Brewery", chars "Taproom"])
        [chars "Taproom", chars "Brewery"]
      ≠ [chars "Brewery", chars "Taproom"] := by
  exact ⟨by decide, by decide⟩

/-! ## The menu-enrichment pass (`brewery-menu-scraper.py`) -/

/-- Python's `needle in text` prefix step: does `text` start with `needle`? -/
def leadsWith : List Char → List Char → Bool
  | [], _ => true
  | _ :: _, [] => false
  | a :: as, b :: bs => decide (a = b) && leadsWith as bs

/-- Python's substring test `needle in text`. -/
def hasSub (needle : List Char) : List Char → Bool
  | [] => needle.isEmpty
  | c :: rest => leadsWith needle (c :: rest) || hasSub needle rest

/-- The `.section-header a` elements of a fetched detail page, in document
order: each link's visible text and optional `href` attribute. -/
structure MenuPage : Type where
  links : List (List Char × Option (List Char))

/-- The marker phrase `extract_menu_url` scans for. -/
def viewAllBeers : List Char := chars "View All Beers"

/-- `extract_menu_url` from `brewery-menu-scraper.py`, over the fetched
page.  `none` models a non-200 response or a request exception (the
function logs and returns the initial `"N/A"`).  Otherwise the loop breaks
at the first `.section-header a` link whose text is truthy (non-empty) and
contains `"View All Beers"`; its `href` is returned; if no link matches, or
the chosen link has no `href` (a `KeyError`, caught by the `except`),
`"N/A"` is returned. -/
def extract_menu_url (page : Option MenuPage) : List Char :=
  match page with
  | none => naStr
  | some pg =>
    match pg.links.find? (fun l => !l.1.isEmpty && hasSub viewAllBeers l.1) with
    | some l =>
      match l.2 with
      | some href => href
      | none => naStr
    | none => naStr

/-- `brewery.get('name', '')`. -/
def nameOf (b : Rec) : JVal := (dGet kName b).getD (.jstr [])

/-- Python truthiness of the JSON values a `name` field can hold: the empty
string, empty array and empty object are falsy. -/
def jFalsy : JVal → Bool
  | .jstr s => s.isEmpty
  | .jarr l => l.isEmpty
  | .jobj l => l.isEmpty

/-- The dict comprehension
`{brewery.get('name', ''): brewery for brewery in breweries}`, with each
record represented by its index in the loaded list (records are distinct
Python objects; aliasing is by position).  A later record with the same
name overwrites the earlier binding. -/
def buildDictAux : Nat → List Rec → List (JVal × Nat) → List (JVal × Nat)
  | _, [], d => d
  | i, b :: rest, d => buildDictAux (i + 1) rest (dSet (nameOf b) i d)

def buildDict (bs : List Rec) : List (JVal × Nat) := buildDictAux 0 bs []

/-- The `for i, brewery in enumerate(to_update)` loop of
`update_breweries_with_menu_urls`: `state` is the current record list (the
loaded `breweries`, mutated in place through the name dictionary), `n`
counts the detail-page fetches (`extract_menu_url` calls).  A record with a
falsy name, a name missing from the dictionary, a target without a `url`
key, or a target whose `url` is `"N/A"` is skipped without a fetch and
without receiving a `menu_url`. -/
def updateLoop (fetch : JVal → List Char) (dict : List (JVal × Nat)) :
    List Rec → List Rec → Nat → List Rec × Nat
  | [], state, n => (state, n)
  | b :: rest, state, n =>
    if jFalsy (nameOf b) then updateLoop fetch dict rest state n
    else
      match dGet (nameOf b) dict with
      | none => updateLoop fetch dict rest state n
      | some idx =>
        match dGet kUrl (state.getD idx []) with
        | some u =>
          if u = JVal.jstr naStr then updateLoop fetch dict rest state n
          else
            updateLoop fetch dict rest
              (state.set idx
                (dSet kMenuUrl (.jstr (fetch u)) (state.getD idx []))) (n + 1)
        | none => updateLoop fetch dict rest state n

/-- `update_breweries_with_menu_urls` from `brewery-menu-scraper.py`, from
the point where the record set has been loaded (`breweries`; a load failure
returns before any of this runs).  `fetchPage` is the network oracle used
by `extract_menu_url`.  Returns the final record list (which the code then
writes out in full) paired with the number of detail-page fetches
performed. -/
def update_breweries_with_menu_urls (fetchPage : JVal → Option MenuPage)
    (breweries : List Rec) : List Rec × Nat :=
  updateLoop (fun u => extract_menu_url (fetchPage u)) (buildDict breweries)
    (breweries.filter (fun b => !dHas kMenuUrl b)) breweries 0

/-! ## Helper lemmas about indexed update -/

theorem getD_set_eq {α : Type} :
    ∀ (l : List α) (i : Nat) (a d : α), i < l.length → (l.set i a).getD i d = a := by
  intro l
  induction l with
  | nil => intro i a d h; simp at h
  | cons x xs ih =>
    intro i a d h
    cases i with
    | zero => rfl
    | succ j =>
      simp only [List.set_cons_succ, List.getD_cons_succ]
      exact ih j a d (by simpa using h)

theorem getD_set_ne {α : Type} :
    ∀ (l : List α) (i j : Nat) (a d : α), i ≠ j →
      (l.set i a).getD j d = l.getD j d := by
  intro l
  induction l with
  | nil => intro i j a d h; simp
  | cons x xs ih =>
    intro i j a d h
    cases i with
    | zero =>
      cases j with
      | zero => exact absurd rfl h
      | succ j' => rfl
    | succ i' =>
      cases j with
      | zero => rfl
      | succ j' =>
        simp only [List.set_cons_succ, List.getD_cons_succ]
        exact ih i' j' a d (fun e => h (by rw [e]))

theorem dHas_dSet_mono {κ α : Type} [DecidableEq κ] (k k' : κ) (v : α)
    (d : List (κ × α)) (h : dHas k d = true) : dHas k (dSet k' v d) = true := by
  by_cases he : k' = k
  · subst he
    simp [dHas, dGet_dSet_eq]
  · simpa [dHas, dGet_dSet_ne v he d] using h

/-- Frame facts about the update loop: it never changes the number of
records, never changes a field other than `menu_url`, and never removes a
`menu_url` that is present. -/
theorem updateLoop_frame (fetch : JVal → List Char) (dict : List (JVal × Nat)) :
    ∀ (todo state : List Rec) (n : Nat),
      (updateLoop fetch dict todo state n).1.length = state.length ∧
      (∀ i k, k ≠ kMenuUrl →
        dGet k ((updateLoop fetch dict todo state n).1.getD i [])
          = dGet k (state.getD i [])) ∧
      (∀ i, dHas kMenuUrl (state.getD i []) = true →
        dHas kMenuUrl ((updateLoop fetch dict todo state n).1.getD i []) = true) := by
  intro todo
  induction todo with
  | nil =>
    intro state n
    exact ⟨rfl, fun i k _ => rfl, fun i h => h⟩
  | cons b rest ih =>
    intro state n
    rw [updateLoop]
    split
    · exact ih state n
    · split
      · exact ih state n
      · rename_i idx hd
        split
        · rename_i u hu
          split
          · exact ih state n
          · obtain ⟨ih1, ih2, ih3⟩ :=
              ih (state.set idx
                (dSet kMenuUrl (.jstr (fetch u)) (state.getD idx []))) (n + 1)
            refine ⟨?_, ?_, ?_⟩
            · rw [ih1, List.length_set]
            · intro i k hk
              rw [ih2 i k hk]
              by_cases hij : idx = i
              · subst hij
                by_cases hlt : idx < state.length
                · rw [getD_set_eq _ _ _ _ hlt,
                    dGet_dSet_ne _ (fun e => hk e.symm) _]
                · rw [List.set_eq_of_length_le (Nat.le_of_not_lt hlt)]
              · rw [getD_set_ne _ _ _ _ _ hij]
            · intro i hmenu
              apply ih3
              by_cases hij : idx = i
              · subst hij
                by_cases hlt : idx < state.length
                · rw [getD_set_eq _ _ _ _ hlt]
                  simp [dHas, dGet_dSet_eq]
                · rw [List.set_eq_of_length_le (Nat.le_of_not_lt hlt)]
                  exact hmenu
              · rw [getD_set_ne _ _ _ _ _ hij]
                exact hmenu
        · exact ih state n

/-- Records at indices the dictionary never points to (for any name in the
todo list) are left untouched by the update loop. -/
theorem updateLoop_untouched (fetch : JVal → List Char)
    (dict : List (JVal × Nat)) (S : Nat → Prop) :
    ∀ todo state n,
      (∀ b ∈ todo, ∀ idx, dGet (nameOf b) dict = some idx → ¬S idx) →
      ∀ i, S i →
        (updateLoop fetch dict todo state n).1.getD i [] = state.getD i [] := by
  intro todo
  induction todo with
  | nil => intro state n _ i _; rfl
  | cons b rest ih =>
    intro state n H i hSi
    have Hrest : ∀ b' ∈ rest, ∀ idx, dGet (nameOf b') dict = some idx → ¬S idx :=
      fun b' hb' => H b' (List.mem_cons_of_mem b hb')
    rw [updateLoop]
    split
    · exact ih state n Hrest i hSi
    · split
      · exact ih state n Hrest i hSi
      · rename_i idx hd
        split
        · rename_i u hu
          split
          · exact ih state n Hrest i hSi
          · have hidx : ¬S idx := H b (List.mem_cons_self b rest) idx hd
            have hne : idx ≠ i := fun e => hidx (e ▸ hSi)
            rw [ih _ _ Hrest i hSi, getD_set_ne _ _ _ _ _ hne]
        · exact ih state n Hrest i hSi

/-- When every pending record has a truthy name, a dictionary entry and a
usable (`≠ "N/A"`) `url` at the pointed-to record, the update loop performs
exactly one fetch per pending record and leaves a `menu_url` at every index
the dictionary pointed it to. -/
theorem updateLoop_run (fetch : JVal → List Char) (dict : List (JVal × Nat)) :
    ∀ todo state n,
      (∀ b ∈ todo, jFalsy (nameOf b) = false ∧
        ∃ idx, dGet (nameOf b) dict = some idx ∧
          ∃ u, dGet kUrl (state.getD idx []) = some u ∧ u ≠ JVal.jstr naStr) →
      (updateLoop fetch dict todo state n).2 = n + todo.length ∧
      (∀ b ∈ todo, ∀ idx, dGet (nameOf b) dict = some idx →
        dHas kMenuUrl ((updateLoop fetch dict todo state n).1.getD idx []) = true) := by
  intro todo
  induction todo with
  | nil =>
    intro state n _
    exact ⟨by simp [updateLoop], fun b hb => absurd hb (by simp)⟩
  | cons b rest ih =>
    intro state n H
    obtain ⟨hbf, idx, hidx, u, hu, hune⟩ := H b (List.mem_cons_self b rest)
    have hlt : idx < state.length := by
      by_contra hge
      rw [List.getD_eq_default _ _ (Nat.le_of_not_lt hge)] at hu
      simp [dGet] at hu
    rw [updateLoop]
    split
    · rename_i hfalsy
      rw [hbf] at hfalsy
      exact absurd hfalsy (by simp)
    · split
      · rename_i hd
        rw [hd] at hidx
        exact absurd hidx (by simp)
      · rename_i idx0 hd
        rw [hd] at hidx
        injection hidx with he
        subst he
        split
        · rename_i u2 hu2
          rw [hu2] at hu
          injection hu with he2
          subst he2
          split
          · rename_i habs
            exact absurd habs hune
          · have Hrest : ∀ b' ∈ rest, jFalsy (nameOf b') = false ∧
                ∃ j, dGet (nameOf b') dict = some j ∧
                  ∃ w, dGet kUrl
                    ((state.set idx0
                      (dSet kMenuUrl (.jstr (fetch u2)) (state.getD idx0 []))).getD j [])
                    = some w ∧ w ≠ JVal.jstr naStr := by
              intro b' hb'
              obtain ⟨h1, j, h2, w, h3, h4⟩ := H b' (List.mem_cons_of_mem b hb')
              refine ⟨h1, j, h2, w, ?_, h4⟩
              by_cases hij : idx0 = j
              · subst hij
                rw [getD_set_eq _ _ _ _ hlt, dGet_dSet_ne _ (by decide) _]
                exact h3
              · rw [getD_set_ne _ _ _ _ _ hij]
                exact h3
            obtain ⟨ihc, ihm⟩ :=
              ih (state.set idx0
                (dSet kMenuUrl (.jstr (fetch u2)) (state.getD idx0 []))) (n + 1) Hrest
            refine ⟨?_, ?_⟩
            · rw [ihc, List.length_cons]
              omega
            · intro b' hb' j h2
              rcases List.mem_cons.mp hb' with rfl | hb'2
              · rw [hd] at h2
                injection h2 with he3
                subst he3
                apply (updateLoop_frame fetch dict rest _ (n + 1)).2.2
                rw [getD_set_eq _ _ _ _ hlt]
                simp [dHas, dGet_dSet_eq]
              · exact ihm b' hb'2 j h2
        · rename_i hu2
          rw [hu2] at hu
          exact absurd hu (by simp)

/-! ## The name dictionary -/

theorem buildDictAux_lookup :
    ∀ (bs : List Rec) (i : Nat) (d : List (JVal × Nat)) (v : JVal) (j : Nat),
      dGet v (buildDictAux i bs d) = some j →
      dGet v d = some j ∨
        ∃ p, p < bs.length ∧ nameOf (bs.getD p []) = v ∧ j = i + p := by
  intro bs
  induction bs with
  | nil => intro i d v j h; exact Or.inl h
  | cons b rest ih =>
    intro i d v j h
    rw [buildDictAux] at h
    rcases ih (i + 1) _ v j h with h2 | ⟨p, hp, hnm, hj⟩
    · by_cases he : nameOf b = v
      · subst he
        rw [dGet_dSet_eq] at h2
        injection h2 with h2
        exact Or.inr ⟨0, by simp, rfl, by omega⟩
      · rw [dGet_dSet_ne _ he _] at h2
        exact Or.inl h2
    · refine Or.inr ⟨p + 1, by simpa using hp, ?_, by omega⟩
      simpa [List.getD_cons_succ] using hnm

theorem buildDictAux_hasKey_mono :
    ∀ (bs : List Rec) (i : Nat) (d : List (JVal × Nat)) (k : JVal),
      dHas k d = true → dHas k (buildDictAux i bs d) = true := by
  intro bs
  induction bs with
  | nil => intro i d k h; exact h
  | cons b rest ih =>
    intro i d k h
    rw [buildDictAux]
    exact ih (i + 1) _ k (dHas_dSet_mono k (nameOf b) i d h)

theorem buildDictAux_hasKey :
    ∀ (bs : List Rec) (i : Nat) (d : List (JVal × Nat)) (b : Rec),
      b ∈ bs → dHas (nameOf b) (buildDictAux i bs d) = true := by
  intro bs
  induction bs with
  | nil => intro i d b h; simp at h
  | cons b0 rest ih =>
    intro i d b h
    rw [buildDictAux]
    rcases List.mem_cons.mp h with rfl | h2
    · exact buildDictAux_hasKey_mono rest (i + 1) _ _
        (by simp [dHas, dGet_dSet_eq])
    · exact ih (i + 1) _ b h2

/-- With pairwise-distinct names, the name dictionary maps the name of the
record at position `p` back to `p`. -/
theorem buildDict_nodup_lookup (bs : List Rec) (h : (bs.map nameOf).Nodup)
    (p : Nat) (hp : p < bs.length) :
    dGet (nameOf (bs.getD p [])) (buildDict bs) = some p := by
  have hmem : bs.getD p [] ∈ bs := by
    rw [List.getD_eq_getElem bs [] hp]
    exact List.getElem_mem hp
  have hkey := buildDictAux_hasKey bs 0 [] _ hmem
  obtain ⟨j, hj⟩ := Option.isSome_iff_exists.mp hkey
  rcases buildDictAux_lookup bs 0 [] _ j hj with h2 | ⟨q, hq, hnm, hjq⟩
  · simp [dGet] at h2
  · have hqp : q = p := by
      have hq2 : q < (bs.map nameOf).length := by simpa using hq
      have hp2 : p < (bs.map nameOf).length := by simpa using hp
      apply h.getElem_inj_iff.mp
      show (bs.map nameOf)[q] = (bs.map nameOf)[p]
      rw [List.getElem_map, List.getElem_map]
      rw [← List.getD_eq_getElem bs [] hq, ← List.getD_eq_getElem bs [] hp]
      exact hnm
    show dGet (nameOf (bs.getD p [])) (buildDictAux 0 bs []) = some p
    rw [hj]
    congr 1
    omega

/-! ## C6 and C1: the enrichment pass -/

/-- C6 (amended: when two records share a name the pass can overwrite the
`menu_url` a record already had — see the counterexample; everything else
holds unconditionally): the enrichment pass never deletes a record and
keeps the order (the output has the same length, record `i` of the output
corresponds to record `i` of the input), never changes any field other than
`menu_url`, and, provided record names are pairwise distinct, a record that
already had a `menu_url` is returned entirely unchanged. -/
theorem update_breweries_frame (fetchPage : JVal → Option MenuPage)
    (breweries : List Rec) :
    (update_breweries_with_menu_urls fetchPage breweries).1.length
      = breweries.length ∧
    (∀ i k, k ≠ kMenuUrl →
      dGet k ((update_breweries_with_menu_urls fetchPage breweries).1.getD i [])
        = dGet k (breweries.getD i [])) ∧
    ((breweries.map nameOf).Nodup →
      ∀ i, dHas kMenuUrl (breweries.getD i []) = true →
        (update_breweries_with_menu_urls fetchPage breweries).1.getD i []
          = breweries.getD i []) := by
  unfold update_breweries_with_menu_urls
  refine ⟨(updateLoop_frame _ _ _ _ _).1, (updateLoop_frame _ _ _ _ _).2.1, ?_⟩
  intro hnodup i hmenu
  apply updateLoop_untouched _ (buildDict breweries)
    (fun j => dHas kMenuUrl (breweries.getD j []) = true) _ breweries 0 _ i hmenu
  intro b hb idx hd
  have hbmem := List.mem_of_mem_filter hb
  have hbpred := List.of_mem_filter hb
  obtain ⟨pb, hpb, hpbe⟩ := List.getElem_of_mem hbmem
  have hbD : breweries.getD pb [] = b := by
    rw [List.getD_eq_getElem _ _ hpb, hpbe]
  rcases buildDictAux_lookup breweries 0 [] (nameOf b) idx hd with h2 | ⟨q, hq, hnm, hjq⟩
  · simp [dGet] at h2
  · have hqpb : q = pb := by
      have hq2 : q < (breweries.map nameOf).length := by simpa using hq
      have hpb2 : pb < (breweries.map nameOf).length := by simpa using hpb
      apply hnodup.getElem_inj_iff.mp
      show (breweries.map nameOf)[q] = (breweries.map nameOf)[pb]
      rw [List.getElem_map, List.getElem_map,
        ← List.getD_eq_getElem breweries [] hq,
        ← List.getD_eq_getElem breweries [] hpb, hbD]
      exact hnm
    intro hcontra
    rw [show idx = pb from by omega, hbD] at hcontra
    simp [hcontra] at hbpred

/-- Counterexample to C6 as stated: two records share the name `"X"`; the
second already has `menu_url = "old"`.  Enriching the first record writes
through the name dictionary into the second record, changing its existing
`menu_url` field. -/
theorem update_breweries_frame_cex :
    dHas kMenuUrl
      (([[(kName, JVal.jstr (chars "X")), (kUrl, JVal.jstr (chars "u1"))],
         [(kName, JVal.jstr (chars "X")), (kUrl, JVal.jstr (chars "u2")),
          (kMenuUrl, JVal.jstr (chars "old"))]] : List Rec).getD 1 []) = true ∧
    (update_breweries_with_menu_urls
        (fun _ => some ⟨[(viewAllBeers, some (chars "NEW"))]⟩)
        [[(kName, JVal.jstr (chars "X")), (kUrl, JVal.jstr (chars "u1"))],
         [(kName, JVal.jstr (chars "X")), (kUrl, JVal.jstr (chars "u2")),
          (kMenuUrl, JVal.jstr (chars "old"))]]).1.getD 1 []
      ≠ ([[(kName, JVal.jstr (chars "X")), (kUrl, JVal.jstr (chars "u1"))],
          [(kName, JVal.jstr (chars "X")), (kUrl, JVal.jstr (chars "u2")),
           (kMenuUrl, JVal.jstr (chars "old"))]] : List Rec).getD 1 [] := by
  exact ⟨by decide, by decide⟩

/-- `"url" in target and target["url"] != "N/A"`, as a decidable test. -/
def urlOk (b : Rec) : Bool :=
  match dGet kUrl b with
  | some u => decide (u ≠ JVal.jstr naStr)
  | none => false

theorem urlOk_iff (b : Rec) :
    urlOk b = true ↔ ∃ u, dGet kUrl b = some u ∧ u ≠ JVal.jstr naStr := by
  unfold urlOk
  cases h : dGet kUrl b with
  | none => simp [h]
  | some u => simp [h]

/-- C1 (amended: records that are skipped — a `url` equal to `"N/A"`, a
missing `url` key, a falsy name, or a duplicate name — receive no fetch and
no `menu_url`, see the counterexample; the claim holds when no record is
skipped): for every loaded record set of N records with pairwise-distinct
truthy names in which every record lacking a `menu_url` has a usable `url`,
the enrichment pass performs exactly N−K detail-page fetches, where K is
the number of records that already have a `menu_url`, and its output has N
records, every one of which carries a `menu_url` field. -/
theorem update_breweries_enrich (fetchPage : JVal → Option MenuPage)
    (breweries : List Rec)
    (hnames : (breweries.map nameOf).Nodup)
    (hfalsy : ∀ b ∈ breweries, jFalsy (nameOf b) = false)
    (hurl : ∀ b ∈ breweries, dHas kMenuUrl b = true ∨ urlOk b = true) :
    (update_breweries_with_menu_urls fetchPage breweries).2
      = breweries.length
        - (breweries.filter (fun b => dHas kMenuUrl b)).length ∧
    (update_breweries_with_menu_urls fetchPage breweries).1.length
      = breweries.length ∧
    (∀ r ∈ (update_breweries_with_menu_urls fetchPage breweries).1,
      dHas kMenuUrl r = true) := by
  unfold update_breweries_with_menu_urls
  have Hrun : ∀ b ∈ breweries.filter (fun b => !dHas kMenuUrl b),
      jFalsy (nameOf b) = false ∧
        ∃ idx, dGet (nameOf b) (buildDict breweries) = some idx ∧
          ∃ u, dGet kUrl (breweries.getD idx []) = some u ∧
            u ≠ JVal.jstr naStr := by
    intro b hb
    have hbmem := List.mem_of_mem_filter hb
    have hbpred := List.of_mem_filter hb
    obtain ⟨pb, hpb, hpbe⟩ := List.getElem_of_mem hbmem
    have hbD : breweries.getD pb [] = b := by
      rw [List.getD_eq_getElem _ _ hpb, hpbe]
    refine ⟨hfalsy b hbmem, pb, ?_, ?_⟩
    · have hlook := buildDict_nodup_lookup breweries hnames pb hpb
      rw [hbD] at hlook
      exact hlook
    · rcases hurl b hbmem with hmenu | hok
      · simp [hmenu] at hbpred
      · obtain ⟨u, hu, hune⟩ := (urlOk_iff b).mp hok
        exact ⟨u, by rw [hbD]; exact hu, hune⟩
  obtain ⟨hcount, hmenuat⟩ :=
    updateLoop_run (fun u => extract_menu_url (fetchPage u)) (buildDict breweries)
      (breweries.filter (fun b => !dHas kMenuUrl b)) breweries 0 Hrun
  refine ⟨?_, (updateLoop_frame _ _ _ _ _).1, ?_⟩
  · rw [hcount]
    have h1 : (breweries.filter (fun b => !dHas kMenuUrl b)).length
        = breweries.countP (fun b => !dHas kMenuUrl b) :=
      (List.countP_eq_length_filter _ _).symm
    have h2 : (breweries.filter (fun b => dHas kMenuUrl b)).length
        = breweries.countP (fun b => dHas kMenuUrl b) :=
      (List.countP_eq_length_filter _ _).symm
    have h3 := List.length_eq_countP_add_countP
      (fun b => dHas kMenuUrl b) breweries
    have h4 : (fun a : Rec => decide ¬(dHas kMenuUrl a = true))
        = (fun b : Rec => !dHas kMenuUrl b) := by
      funext a
      cases hx : dHas kMenuUrl a <;> simp [hx]
    rw [h4] at h3
    rw [Nat.zero_add, h1, h2, h3, Nat.add_sub_cancel_left]
  · intro r hr
    obtain ⟨i, hi, hie⟩ := List.getElem_of_mem hr
    have hlen := (updateLoop_frame (fun u => extract_menu_url (fetchPage u))
      (buildDict breweries) (breweries.filter (fun b => !dHas kMenuUrl b))
      breweries 0).1
    have hi' : i < breweries.length := by rw [← hlen]; exact hi
    have hrD : (updateLoop (fun u => extract_menu_url (fetchPage u))
        (buildDict breweries) (breweries.filter (fun b => !dHas kMenuUrl b))
        breweries 0).1.getD i [] = r := by
      rw [List.getD_eq_getElem _ _ hi, hie]
    rw [← hrD]
    by_cases hm : dHas kMenuUrl (breweries.getD i []) = true
    · exact (updateLoop_frame _ _ _ _ _).2.2 i hm
    · have hmem : breweries.getD i [] ∈ breweries := by
        rw [List.getD_eq_getElem _ _ hi']
        exact List.getElem_mem hi'
      have hmemf : breweries.getD i []
          ∈ breweries.filter (fun b => !dHas kMenuUrl b) := by
        rw [List.mem_filter]
        refine ⟨hmem, ?_⟩
        simp only [Bool.not_eq_true] at hm
        rw [hm]
        rfl
      exact hmenuat _ hmemf i (buildDict_nodup_lookup breweries hnames i hi')

/-- Witness for C1: two records with distinct names, one already enriched;
exactly one fetch happens and both output records carry `menu_url`. -/
theorem update_breweries_enrich_witness :
    (update_breweries_with_menu_urls (fun _ => none)
        [[(kName, JVal.jstr (chars "A")), (kUrl, JVal.jstr (chars "u"))],
         [(kName, JVal.jstr (chars "B")), (kUrl, JVal.jstr (chars "v")),
          (kMenuUrl, JVal.jstr naStr)]]).2
      = ([[(kName, JVal.jstr (chars "A")), (kUrl, JVal.jstr (chars "u"))],
          [(kName, JVal.jstr (chars "B")), (kUrl, JVal.jstr (chars "v")),
           (kMenuUrl, JVal.jstr naStr)]] : List Rec).length
        - (([[(kName, JVal.jstr (chars "A")), (kUrl, JVal.jstr (chars "u"))],
             [(kName, JVal.jstr (chars "B")), (kUrl, JVal.jstr (chars "v")),
              (kMenuUrl, JVal.jstr naStr)]] : List Rec).filter
            (fun b => dHas kMenuUrl b)).length ∧
    (update_breweries_with_menu_urls (fun _ => none)
        [[(kName, JVal.jstr (chars "A")), (kUrl, JVal.jstr (chars "u"))],
         [(kName, JVal.jstr (chars "B")), (kUrl, JVal.jstr (chars "v")),
          (kMenuUrl, JVal.jstr naStr)]]).1.length
      = ([[(kName, JVal.jstr (chars "A")), (kUrl, JVal.jstr (chars "u"))],
          [(kName, JVal.jstr (chars "B")), (kUrl, JVal.jstr (chars "v")),
           (kMenuUrl, JVal.jstr naStr)]] : List Rec).length ∧
    (∀ r ∈ (update_breweries_with_menu_urls (fun _ => none)
        [[(kName, JVal.jstr (chars "A")), (kUrl, JVal.jstr (chars "u"))],
         [(kName, JVal.jstr (chars "B")), (kUrl, JVal.jstr (chars "v")),
          (kMenuUrl, JVal.jstr naStr)]]).1,
      dHas kMenuUrl r = true) :=
  update_breweries_enrich (fun _ => none)
    [[(kName, JVal.jstr (chars "A")), (kUrl, JVal.jstr (chars "u"))],
     [(kName, JVal.jstr (chars "B")), (kUrl, JVal.jstr (chars "v")),
      (kMenuUrl, JVal.jstr naStr)]]
    (by decide) (by decide) (by decide)

/-- Counterexample to C1 as stated: one record (N = 1, K = 0) whose `url`
is the sentinel `"N/A"`.  The pass performs 0 fetches, not N−K = 1, and
the output record carries no `menu_url` field. -/
theorem update_breweries_enrich_cex :
    (update_breweries_with_menu_urls (fun _ => none)
        [[(kName, JVal.jstr (chars "A")), (kUrl, JVal.jstr naStr)]]).2 = 0 ∧
    ([[(kName, JVal.jstr (chars "A")), (kUrl, JVal.jstr naStr)]] : List Rec).length
      - (([[(kName, JVal.jstr (chars "A")),
            (kUrl, JVal.jstr naStr)]] : List Rec).filter
          (fun b => dHas kMenuUrl b)).length = 1 ∧
    dHas kMenuUrl
      ((update_breweries_with_menu_urls (fun _ => none)
        [[(kName, JVal.jstr (chars "A")), (kUrl, JVal.jstr naStr)]]).1.getD 0 [])
      = false := by
  exact ⟨by decide, by decide, by decide⟩

/-! ## The main scrape pass (`brewery-scraper.py`) -/

/-- A fetched, parsed detail page: the elements `scrape_brewery_detail`
selects.  `address` is the text of `.address a`, `phone` the text of
`.tel a`, `website` the `href` of `.listing-links a` (present only when the
element exists and has an `href`), `socials` the `.list-social-item a`
elements with their optional `href`s, in document order. -/
structure DetailPage : Type where
  address : Option (List Char)
  phone : Option (List Char)
  website : Option (List Char)
  socials : List (Option (List Char))

/-- The initial `detail_info` dict of `scrape_brewery_detail`: six fields,
all `"N/A"` (note: no `country` key, and `state_province` defaults to
`"N/A"`). -/
def detailDefaults : Rec :=
  [(kAddress, .jstr naStr), (kPostalCode, .jstr naStr),
   (kStateProvince, .jstr naStr), (kPhone, .jstr naStr),
   (kWebsiteUrl, .jstr naStr), (kSocialMedia, .jstr naStr)]

/-- `if address_element: detail_info.update(parse_address(...))`. -/
def detailAddress (pg : DetailPage) (d : Rec) : Rec :=
  match pg.address with
  | some addr => dUpdate d (parse_address (pyStrip addr))
  | none => d

/-- `if phone_element: detail_info["phone"] = clean_phone_number(...)`. -/
def detailPhone (pg : DetailPage) (d : Rec) : Rec :=
  match pg.phone with
  | some raw => dSet kPhone (.jstr (clean_phone_number (pyStrip raw))) d
  | none => d

/-- `if website_element and "href" in ...: detail_info["website_url"] = ...`. -/
def detailWebsite (pg : DetailPage) (d : Rec) : Rec :=
  match pg.website with
  | some href => dSet kWebsiteUrl (.jstr href) d
  | none => d

/-- `if social_media_elements: detail_info["social_media"] = social_links`
(the links that do have an `href`). -/
def detailSocial (pg : DetailPage) (d : Rec) : Rec :=
  match pg.socials with
  | [] => d
  | _ :: _ => dSet kSocialMedia (.jarr ((pg.socials.filterMap id).map .jstr)) d

/-- `scrape_brewery_detail` from `brewery-scraper.py`.  `page = none`
models a non-200 response or a request exception: the defaults are
returned unchanged.  Otherwise the four extraction blocks run in source
order. -/
def scrape_brewery_detail (page : Option DetailPage) : Rec :=
  match page with
  | none => detailDefaults
  | some pg => detailSocial pg (detailWebsite pg (detailPhone pg
      (detailAddress pg detailDefaults)))

/-- One `.listing-item` card: the optional `.listing-title` text,
`.location` text, `.features` text, and the first anchor's `href`
(present only when the anchor exists and has an `href`). -/
structure Card : Type where
  title : Option (List Char)
  location : Option (List Char)
  features : Option (List Char)
  href : Option (List Char)

/-- `brewery["url"]`: the card's `href`, `"N/A"` when absent. -/
def cardUrl (card : Card) : List Char :=
  match card.href with
  | some h => h
  | none => naStr

/-- The listing fields of one brewery dict, in insertion order: `name`,
`city`, `brewery_type` (pipe-split, stripped, allow-list filtered), `url`. -/
def listingRec (allowed : Option (List (List Char))) (card : Card) : Rec :=
  dSet kUrl (.jstr (cardUrl card))
    (dSet kBreweryType
      (match card.features with
       | some txt => .jarr ((filter_features allowed
           ((splitOn '|' (pyStrip txt)).map pyStrip)).map .jstr)
       | none => .jarr [])
      (dSet kCity
        (.jstr (match card.location with
                | some t => pyStrip t
                | none => naStr))
        (dSet kName
          (.jstr (match card.title with
                  | some t => pyStrip t
                  | none => naStr)) [])))

/-- The body of the per-card loop of `scrape_all_breweries`: build the
listing fields, and when the card's `url` is not `"N/A"`, fetch the detail
page (`detailOf` is the network oracle) and merge the Detail Parser's dict
into the record. -/
def processCard (allowed : Option (List (List Char)))
    (detailOf : List Char → Option DetailPage) (card : Card) : Rec :=
  if cardUrl card = naStr then listingRec allowed card
  else dUpdate (listingRec allowed card)
    (scrape_brewery_detail (detailOf (cardUrl card)))

/-- `brewery_cards[:limit] if limit and isinstance(limit, int) and limit > 0`. -/
def applyLimit (cards : List Card) (limit : Option Nat) : List Card :=
  match limit with
  | some n => if 0 < n then cards.take n else cards
  | none => cards

/-- `scrape_all_breweries` from `brewery-scraper.py`.  `status` is the
listing-page HTTP status, `cards` the parsed `.listing-item` elements,
`proc` the per-card `try` body (`none` models an exception caught by the
`except`, which skips the card).  Returns `none` (Python `None`) on a
non-200 status, when no cards are found, or when no card was successfully
processed; otherwise the accumulated record list. -/
def scrape_all_breweries (proc : Card → Option Rec) (status : Nat)
    (cards : List Card) (limit : Option Nat) : Option (List Rec) :=
  if status ≠ 200 then none
  else if cards.isEmpty then none
  else if ((applyLimit cards limit).filterMap proc).isEmpty then none
  else some ((applyLimit cards limit).filterMap proc)

/-! ## C5: `state_province` and `country` -/

theorem parse_address_shape (full : List Char) :
    ∃ a p, parse_address full =
      [(kAddress, .jstr a), (kPostalCode, .jstr p),
       (kStateProvince, .jstr (chars "BC")),
       (kCountry, .jstr (chars "Canada"))] := by
  cases hS : (splitOn ',' full).map pyStrip with
  | nil =>
    exfalso
    exact splitOn_ne_nil ',' full (List.map_eq_nil_iff.mp hS)
  | cons p ps =>
    cases ps with
    | nil => exact ⟨_, _, parse_address_single full p hS⟩
    | cons q qs =>
      cases hm : reSearchPostal ((p :: q :: qs).getLastD []) with
      | some m =>
        exact ⟨_, _, parse_address_multi_found full p m (q :: qs) hS (by simp) hm⟩
      | none =>
        exact ⟨_, _, parse_address_multi_none full p (q :: qs) hS (by simp) hm⟩

/-- The phone, website and social steps only touch their own fields: from a
dict whose first six bindings are the detail fields (possibly followed by
further bindings, such as the appended `country`), they produce the same
layout with possibly new `phone`, `website_url`, `social_media` values. -/
theorem detailSteps_shape (pa pp pw : Option (List Char))
    (ps : List (Option (List Char))) (ad po st ph0 wb0 sm0 : JVal)
    (rest : Rec) :
    ∃ ph wb sm,
      detailSocial ⟨pa, pp, pw, ps⟩ (detailWebsite ⟨pa, pp, pw, ps⟩
        (detailPhone ⟨pa, pp, pw, ps⟩
          ([(kAddress, ad), (kPostalCode, po), (kStateProvince, st),
            (kPhone, ph0), (kWebsiteUrl, wb0), (kSocialMedia, sm0)] ++ rest)))
      = [(kAddress, ad), (kPostalCode, po), (kStateProvince, st),
         (kPhone, ph), (kWebsiteUrl, wb), (kSocialMedia, sm)] ++ rest := by
  cases pp <;> cases pw <;> cases ps <;> exact ⟨_, _, _, rfl⟩

/-- The Detail Parser dict when the page was fetched but had no address
element: `state_province` stays `"N/A"` and there is no `country` key. -/
theorem scrape_detail_shape_no_addr (pg : DetailPage) (h : pg.address = none) :
    ∃ ph wb sm, scrape_brewery_detail (some pg) =
      [(kAddress, .jstr naStr), (kPostalCode, .jstr naStr),
       (kStateProvince, .jstr naStr), (kPhone, ph), (kWebsiteUrl, wb),
       (kSocialMedia, sm)] := by
  obtain ⟨pa, pp, pw, ps⟩ := pg
  cases pa with
  | some a => exact Option.noConfusion h
  | none =>
    obtain ⟨ph, wb, sm, hsh⟩ := detailSteps_shape none pp pw ps
      (.jstr naStr) (.jstr naStr) (.jstr naStr) (.jstr naStr) (.jstr naStr)
      (.jstr naStr) []
    refine ⟨ph, wb, sm, ?_⟩
    have h0 : scrape_brewery_detail (some ⟨none, pp, pw, ps⟩)
        = detailSocial ⟨none, pp, pw, ps⟩ (detailWebsite ⟨none, pp, pw, ps⟩
            (detailPhone ⟨none, pp, pw, ps⟩
              ([(kAddress, .jstr naStr), (kPostalCode, .jstr naStr),
                (kStateProvince, .jstr naStr), (kPhone, .jstr naStr),
                (kWebsiteUrl, .jstr naStr), (kSocialMedia, .jstr naStr)] ++ []))) := by
      rfl
    rw [h0, hsh]
    rfl

/-- The Detail Parser dict when the page had an address element:
`state_province = "BC"` and a `country = "Canada"` key is appended. -/
theorem scrape_detail_shape_addr (pg : DetailPage) (addr : List Char)
    (h : pg.address = some addr) :
    ∃ ad po ph wb sm, scrape_brewery_detail (some pg) =
      [(kAddress, ad), (kPostalCode, po),
       (kStateProvince, .jstr (chars "BC")), (kPhone, ph),
       (kWebsiteUrl, wb), (kSocialMedia, sm),
       (kCountry, .jstr (chars "Canada"))] := by
  obtain ⟨pa, pp, pw, ps⟩ := pg
  cases pa with
  | none => exact Option.noConfusion h
  | some a =>
    obtain ⟨a2, p2, hshape⟩ := parse_address_shape (pyStrip a)
    obtain ⟨ph, wb, sm, hsh⟩ := detailSteps_shape (some a) pp pw ps
      (.jstr a2) (.jstr p2) (.jstr (chars "BC")) (.jstr naStr) (.jstr naStr)
      (.jstr naStr) [(kCountry, .jstr (chars "Canada"))]
    refine ⟨.jstr a2, .jstr p2, ph, wb, sm, ?_⟩
    have h0 : scrape_brewery_detail (some ⟨some a, pp, pw, ps⟩)
        = detailSocial ⟨some a, pp, pw, ps⟩
            (detailWebsite ⟨some a, pp, pw, ps⟩
              (detailPhone ⟨some a, pp, pw, ps⟩
                (dUpdate detailDefaults (parse_address (pyStrip a))))) := by
      rfl
    have h1 : dUpdate detailDefaults (parse_address (pyStrip a))
        = [(kAddress, JVal.jstr a2), (kPostalCode, .jstr p2),
           (kStateProvince, .jstr (chars "BC")), (kPhone, .jstr naStr),
           (kWebsiteUrl, .jstr naStr), (kSocialMedia, .jstr naStr)]
          ++ [(kCountry, .jstr (chars "Canada"))] := by
      rw [hshape]
      rfl
    rw [h0, h1, hsh]
    rfl

theorem dGet_listingRec_state (allowed : Option (List (List Char)))
    (card : Card) :
    dGet kStateProvince (listingRec allowed card) = none := by
  unfold listingRec
  rw [dGet_dSet_ne _ (by decide) _, dGet_dSet_ne _ (by decide) _,
    dGet_dSet_ne _ (by decide) _, dGet_dSet_ne _ (by decide) _]
  rfl

theorem dGet_listingRec_country (allowed : Option (List (List Char)))
    (card : Card) :
    dGet kCountry (listingRec allowed card) = none := by
  unfold listingRec
  rw [dGet_dSet_ne _ (by decide) _, dGet_dSet_ne _ (by decide) _,
    dGet_dSet_ne _ (by decide) _, dGet_dSet_ne _ (by decide) _]
  rfl

/-- C5 (amended: the constants are only set when a detail page is fetched
successfully and contains an address element — see the counterexample):
a record whose detail page yields an address element has
`state_province = "BC"` and `country = "Canada"`; when the address element
is missing or the detail fetch fails, `state_province` is the sentinel
`"N/A"` and there is no `country` field at all; and a card with url `"N/A"`
yields a record with neither field. -/
theorem processCard_constants (allowed : Option (List (List Char)))
    (detailOf : List Char → Option DetailPage) (card : Card) :
    (cardUrl card = naStr →
      dGet kStateProvince (processCard allowed detailOf card) = none ∧
      dGet kCountry (processCard allowed detailOf card) = none) ∧
    (cardUrl card ≠ naStr → detailOf (cardUrl card) = none →
      dGet kStateProvince (processCard allowed detailOf card)
        = some (.jstr naStr) ∧
      dGet kCountry (processCard allowed detailOf card) = none) ∧
    (∀ pg, cardUrl card ≠ naStr → detailOf (cardUrl card) = some pg →
      pg.address = none →
      dGet kStateProvince (processCard allowed detailOf card)
        = some (.jstr naStr) ∧
      dGet kCountry (processCard allowed detailOf card) = none) ∧
    (∀ pg addr, cardUrl card ≠ naStr → detailOf (cardUrl card) = some pg →
      pg.address = some addr →
      dGet kStateProvince (processCard allowed detailOf card)
        = some (.jstr (chars "BC")) ∧
      dGet kCountry (processCard allowed detailOf card)
        = some (.jstr (chars "Canada"))) := by
  refine ⟨?_, ?_, ?_, ?_⟩
  · intro hna
    unfold processCard
    rw [if_pos hna]
    exact ⟨dGet_listingRec_state allowed card, dGet_listingRec_country allowed card⟩
  · intro hna hfail
    unfold processCard
    rw [if_neg hna, hfail]
    show dGet kStateProvince (dSet kSocialMedia _ (dSet kWebsiteUrl _
        (dSet kPhone _ (dSet kStateProvince _ (dSet kPostalCode _
          (dSet kAddress _ (listingRec allowed card))))))) = _ ∧
      dGet kCountry (dSet kSocialMedia _ (dSet kWebsiteUrl _
        (dSet kPhone _ (dSet kStateProvince _ (dSet kPostalCode _
          (dSet kAddress _ (listingRec allowed card))))))) = _
    constructor
    · rw [dGet_dSet_ne _ (by decide) _, dGet_dSet_ne _ (by decide) _,
        dGet_dSet_ne _ (by decide) _, dGet_dSet_eq]
    · rw [dGet_dSet_ne _ (by decide) _, dGet_dSet_ne _ (by decide) _,
        dGet_dSet_ne _ (by decide) _, dGet_dSet_ne _ (by decide) _,
        dGet_dSet_ne _ (by decide) _, dGet_dSet_ne _ (by decide) _]
      exact dGet_listingRec_country allowed card
  · intro pg hna hpg haddr
    unfold processCard
    rw [if_neg hna, hpg]
    obtain ⟨ph, wb, sm, hshape⟩ := scrape_detail_shape_no_addr pg haddr
    rw [hshape]
    show dGet kStateProvince (dSet kSocialMedia _ (dSet kWebsiteUrl _
        (dSet kPhone _ (dSet kStateProvince _ (dSet kPostalCode _
          (dSet kAddress _ (listingRec allowed card))))))) = _ ∧
      dGet kCountry (dSet kSocialMedia _ (dSet kWebsiteUrl _
        (dSet kPhone _ (dSet kStateProvince _ (dSet kPostalCode _
          (dSet kAddress _ (listingRec allowed card))))))) = _
    constructor
    · rw [dGet_dSet_ne _ (by decide) _, dGet_dSet_ne _ (by decide) _,
        dGet_dSet_ne _ (by decide) _, dGet_dSet_eq]
    · rw [dGet_dSet_ne _ (by decide) _, dGet_dSet_ne _ (by decide) _,
        dGet_dSet_ne _ (by decide) _, dGet_dSet_ne _ (by decide) _,
        dGet_dSet_ne _ (by decide) _, dGet_dSet_ne _ (by decide) _]
      exact dGet_listingRec_country allowed card
  · intro pg addr hna hpg haddr
    unfold processCard
    rw [if_neg hna, hpg]
    obtain ⟨ad, po, ph, wb, sm, hshape⟩ := scrape_detail_shape_addr pg addr haddr
    rw [hshape]
    show dGet kStateProvince (dSet kCountry _ (dSet kSocialMedia _
        (dSet kWebsiteUrl _ (dSet kPhone _ (dSet kStateProvince _
          (dSet kPostalCode _ (dSet kAddress _ (listingRec allowed card))))))))
        = _ ∧
      dGet kCountry (dSet kCountry _ (dSet kSocialMedia _
        (dSet kWebsiteUrl _ (dSet kPhone _ (dSet kStateProvince _
          (dSet kPostalCode _ (dSet kAddress _ (listingRec allowed card))))))))
        = _
    constructor
    · rw [dGet_dSet_ne _ (by decide) _, dGet_dSet_ne _ (by decide) _,
        dGet_dSet_ne _ (by decide) _, dGet_dSet_ne _ (by decide) _,
        dGet_dSet_eq]
    · rw [dGet_dSet_eq]

/-- Witness for C5: the successful-address branch at a concrete card. -/
theorem processCard_constants_witness :
    dGet kStateProvince
      (processCard none
        (fun _ => some ⟨some (chars "1 A St, V, BC V5K 0A1"), none, none, []⟩)
        ⟨some (chars "T"), none, none, some (chars "u")⟩)
      = some (.jstr (chars "BC")) ∧
    dGet kCountry
      (processCard none
        (fun _ => some ⟨some (chars "1 A St, V, BC V5K 0A1"), none, none, []⟩)
        ⟨some (chars "T"), none, none, some (chars "u")⟩)
      = some (.jstr (chars "Canada")) :=
  (processCard_constants none
    (fun _ => some ⟨some (chars "1 A St, V, BC V5K 0A1"), none, none, []⟩)
    ⟨some (chars "T"), none, none, some (chars "u")⟩).2.2.2
    ⟨some (chars "1 A St, V, BC V5K 0A1"), none, none, []⟩
    (chars "1 A St, V, BC V5K 0A1") (by decide) rfl rfl

/-- Counterexample to C5 as stated: a fetched detail page with no address
element yields `state_province = "N/A"` (not the constant `"BC"`) and no
`country` field. -/
theorem processCard_constants_cex :
    dGet kStateProvince
      (processCard none (fun _ => some ⟨none, none, none, []⟩)
        ⟨some (chars "T"), none, none, some (chars "u")⟩)
      = some (.jstr naStr) ∧
    dGet kCountry
      (processCard none (fun _ => some ⟨none, none, none, []⟩)
        ⟨some (chars "T"), none, none, some (chars "u")⟩)
      = none ∧
    JVal.jstr naStr ≠ JVal.jstr (chars "BC") := by
  exact ⟨by decide, by decide, by decide⟩

/-! ## C10: `scrape_all_breweries` never returns an empty set -/

theorem applyLimit_subset (cards : List Card) (limit : Option Nat)
    (c : Card) (h : c ∈ applyLimit cards limit) : c ∈ cards := by
  cases limit with
  | none => exact h
  | some n =>
    by_cases hn : 0 < n
    · have h2 : applyLimit cards (some n) = cards.take n := by
        show (if 0 < n then cards.take n else cards) = cards.take n
        rw [if_pos hn]
      rw [h2] at h
      exact List.take_subset n cards h
    · have h2 : applyLimit cards (some n) = cards := by
        show (if 0 < n then cards.take n else cards) = cards
        rw [if_neg hn]
      rw [h2] at h
      exact h

/-- C10: `scrape_all_breweries` returns the failure signal `none` on a
non-200 listing fetch, when the listing page has zero card elements, and
when every card fails processing; whenever it returns a record set, that
set is non-empty. -/
theorem scrape_all_breweries_nonempty (proc : Card → Option Rec)
    (status : Nat) (cards : List Card) (limit : Option Nat) :
    (status ≠ 200 → scrape_all_breweries proc status cards limit = none) ∧
    (cards = [] → scrape_all_breweries proc status cards limit = none) ∧
    ((∀ c ∈ cards, proc c = none) →
      scrape_all_breweries proc status cards limit = none) ∧
    (∀ l, scrape_all_breweries proc status cards limit = some l → l ≠ []) := by
  refine ⟨?_, ?_, ?_, ?_⟩
  · intro h
    unfold scrape_all_breweries
    rw [if_pos h]
  · intro h
    subst h
    unfold scrape_all_breweries
    by_cases hs : status ≠ 200
    · rw [if_pos hs]
    · rw [if_neg hs]
      rfl
  · intro h
    unfold scrape_all_breweries
    by_cases hs : status ≠ 200
    · rw [if_pos hs]
    · rw [if_neg hs]
      by_cases hc : cards.isEmpty
      · rw [if_pos hc]
      · rw [if_neg hc]
        have hfm : (applyLimit cards limit).filterMap proc = [] := by
          rw [List.filterMap_eq_nil_iff]
          intro c hcm
          exact h c (applyLimit_subset cards limit c hcm)
        rw [hfm]
        rfl
  · intro l hl
    unfold scrape_all_breweries at hl
    split_ifs at hl with h1 h2 h3
    injection hl with hl
    intro he
    exact h3 (by rw [hl, he]; rfl)

/-! ## C7: the JSON writer and reader

`save_data(df, "json")` serializes the record set with
`json.dump(records, f, ensure_ascii=False, indent=4)`, and the enrichment
pass reads it back with `json.load`.  `json_dumps` models CPython's
encoder for the value fragment the records live in (strings, arrays,
objects): `indent=4` separators (`','`, `': '`), a newline plus
4-per-level spaces before every item and before the closing bracket,
`[]`/`{}` for empty containers, and `ensure_ascii=False` string escaping
(backslash, quote, `\b \f \n \r \t`, `\u00XX` for other control
characters, everything else literal).  `json_loads` models `json.load` on
the same fragment, with standard JSON whitespace skipping and escape
decoding. -/

/-- Lowercase hex digit, as CPython's `'\\u%04x'` formats it. -/
def hexDig (n : Nat) : Char :=
  if n < 10 then Char.ofNat (48 + n) else Char.ofNat (87 + n)

/-- `ensure_ascii=False` escaping of one character. -/
def escChar (c : Char) : List Char :=
  if c = '\\' then ['\\', '\\']
  else if c = '"' then ['\\', '"']
  else if c = '\x08' then ['\\', 'b']
  else if c = '\x0c' then ['\\', 'f']
  else if c = '\n' then ['\\', 'n']
  else if c = '\x0d' then ['\\', 'r']
  else if c = '\t' then ['\\', 't']
  else if c.toNat < 0x20 then
    ['\\', 'u', '0', '0', hexDig (c.toNat / 16), hexDig (c.toNat % 16)]
  else [c]

def escape : List Char → List Char
  | [] => []
  | c :: cs => escChar c ++ escape cs

/-- A JSON string literal. -/
def dumpStr (s : List Char) : List Char := '"' :: (escape s ++ ['"'])

/-- `indent=4`: the newline-plus-indent written before each item and the
closing bracket at nesting level `lvl`. -/
def nl (lvl : Nat) : List Char := '\n' :: List.replicate (4 * lvl) ' '

mutual

/-- One JSON value at nesting level `lvl`, as `json.dump(..., indent=4)`
writes it. -/
def dumpVal (lvl : Nat) : JVal → List Char
  | .jstr s => dumpStr s
  | .jarr [] => ['[', ']']
  | .jarr (v :: vs) =>
    '[' :: (nl (lvl + 1) ++ dumpVal (lvl + 1) v ++ dumpArrTail (lvl + 1) vs
      ++ nl lvl ++ [']'])
  | .jobj [] => ['\x7b', '\x7d']
  | .jobj ((k, v) :: ps) =>
    '\x7b' :: (nl (lvl + 1) ++ dumpStr k ++ ':' :: ' ' :: dumpVal (lvl + 1) v
      ++ dumpObjTail (lvl + 1) ps ++ nl lvl ++ ['\x7d'])

/-- The remaining array items, each preceded by `,` and the indent. -/
def dumpArrTail (lvl : Nat) : List JVal → List Char
  | [] => []
  | v :: vs => ',' :: (nl lvl ++ dumpVal lvl v ++ dumpArrTail lvl vs)

/-- The remaining object members. -/
def dumpObjTail (lvl : Nat) : List (List Char × JVal) → List Char
  | [] => []
  | (k, v) :: ps =>
    ',' :: (nl lvl ++ dumpStr k ++ ':' :: ' ' :: dumpVal lvl v
      ++ dumpObjTail lvl ps)

end

/-- `json.dump(records, f, ensure_ascii=False, indent=4)`. -/
def json_dumps (v : JVal) : List Char := dumpVal 0 v

/-- JSON whitespace. -/
def jsonWs (c : Char) : Bool := c = ' ' || c = '\t' || c = '\n' || c = '\x0d'

def skipWs (s : List Char) : List Char := s.dropWhile jsonWs

/-- Value of a hex digit. -/
def hexVal (c : Char) : Option Nat :=
  if '0' ≤ c ∧ c ≤ '9' then some (c.toNat - 48)
  else if 'a' ≤ c ∧ c ≤ 'f' then some (c.toNat - 87)
  else if 'A' ≤ c ∧ c ≤ 'F' then some (c.toNat - 55)
  else none

/-- The single-character JSON escapes. -/
def unescChar (c : Char) : Option Char :=
  if c = '"' then some '"'
  else if c = '\\' then some '\\'
  else if c = '/' then some '/'
  else if c = 'b' then some '\x08'
  else if c = 'f' then some '\x0c'
  else if c = 'n' then some '\n'
  else if c = 'r' then some '\x0d'
  else if c = 't' then some '\t'
  else none

/-- The body of a JSON string literal after its opening quote: returns the
decoded string and the input after the closing quote. -/
def parseStrBody : List Char → Option (List Char × List Char)
  | [] => none
  | c :: rest =>
    if c = '"' then some ([], rest)
    else if c = '\\' then
      match rest with
      | 'u' :: h1 :: h2 :: h3 :: h4 :: rest2 =>
        match hexVal h1, hexVal h2, hexVal h3, hexVal h4 with
        | some a, some b, some c, some d =>
          (parseStrBody rest2).map (fun r =>
            (Char.ofNat (4096 * a + 256 * b + 16 * c + d) :: r.1, r.2))
        | _, _, _, _ => none
      | e :: rest2 =>
        match unescChar e with
        | some u => (parseStrBody rest2).map (fun r => (u :: r.1, r.2))
        | none => none
      | [] => none
    else (parseStrBody rest).map (fun r => (c :: r.1, r.2))

mutual

/-- One JSON value of the fragment (string, array, object), fuelled. -/
def parseVal : Nat → List Char → Option (JVal × List Char)
  | 0, _ => none
  | f + 1, s =>
    match skipWs s with
    | [] => none
    | c :: rest =>
      if c = '"' then (parseStrBody rest).map (fun r => (.jstr r.1, r.2))
      else if c = '[' then
        match skipWs rest with
        | [] => none
        | c2 :: rest2 =>
          if c2 = ']' then some (.jarr [], rest2)
          else
            match parseVal f rest with
            | some (v, rest3) =>
              match parseArrTail f rest3 with
              | some (vs, rest4) => some (.jarr (v :: vs), rest4)
              | none => none
            | none => none
      else if c = '\x7b' then
        match skipWs rest with
        | [] => none
        | c2 :: rest2 =>
          if c2 = '\x7d' then some (.jobj [], rest2)
          else
            match parseMember f rest with
            | some (k, v, rest3) =>
              match parseObjTail f rest3 with
              | some (ps, rest4) => some (.jobj ((k, v) :: ps), rest4)
              | none => none
            | none => none
      else none

/-- One `"key": value` member. -/
def parseMember : Nat → List Char → Option (List Char × JVal × List Char)
  | 0, _ => none
  | f + 1, s =>
    match skipWs s with
    | [] => none
    | c :: rest =>
      if c = '"' then
        match parseStrBody rest with
        | some (k, rest2) =>
          match skipWs rest2 with
          | [] => none
          | c2 :: rest3 =>
            if c2 = ':' then
              match parseVal f rest3 with
              | some (v, rest4) => some (k, v, rest4)
              | none => none
            else none
        | none => none
      else none

/-- After one array item: `, item ...` repeated until `]`. -/
def parseArrTail : Nat → List Char → Option (List JVal × List Char)
  | 0, _ => none
  | f + 1, s =>
    match skipWs s with
    | [] => none
    | c :: rest =>
      if c = ',' then
        match parseVal f rest with
        | some (v, rest2) =>
          match parseArrTail f rest2 with
          | some (vs, rest3) => some (v :: vs, rest3)
          | none => none
        | none => none
      else if c = ']' then some ([], rest)
      else none

/-- After one object member: `, member ...` repeated until the closing
brace. -/
def parseObjTail : Nat → List Char → Option (List (List Char × JVal) × List Char)
  | 0, _ => none
  | f + 1, s =>
    match skipWs s with
    | [] => none
    | c :: rest =>
      if c = ',' then
        match parseMember f rest with
        | some (k, v, rest2) =>
          match parseObjTail f rest2 with
          | some (ps, rest3) => some ((k, v) :: ps, rest3)
          | none => none
        | none => none
      else if c = '\x7d' then some ([], rest)
      else none

end

/-- `json.load`: one value, then only trailing whitespace. -/
def json_loads (s : List Char) : Option JVal :=
  match parseVal (s.length + 1) s with
  | some (v, rest) => if (skipWs rest).isEmpty then some v else none
  | none => none

/-! ### Fuel measure for the parser -/

mutual

/-- Node count of a JSON value: enough parser fuel for the value. -/
def jmeasure : JVal → Nat
  | .jstr _ => 1
  | .jarr vs => 1 + jmeasureArr vs
  | .jobj ps => 1 + jmeasureObj ps

def jmeasureArr : List JVal → Nat
  | [] => 1
  | v :: vs => 1 + jmeasure v + jmeasureArr vs

def jmeasureObj : List (List Char × JVal) → Nat
  | [] => 1
  | (_, v) :: ps => 1 + jmeasure v + jmeasureObj ps

end

theorem jmeasure_pos (v : JVal) : 1 ≤ jmeasure v := by
  cases v <;> simp [jmeasure]

theorem jmeasureArr_pos (vs : List JVal) : 1 ≤ jmeasureArr vs := by
  cases vs with
  | nil => simp [jmeasureArr]
  | cons v vs => simp only [jmeasureArr]; omega

theorem jmeasureObj_pos (ps : List (List Char × JVal)) : 1 ≤ jmeasureObj ps := by
  cases ps with
  | nil => simp [jmeasureObj]
  | cons p ps => obtain ⟨k, v⟩ := p; simp only [jmeasureObj]; omega

/-! ### Whitespace lemmas -/

theorem skipWs_cons_not (c : Char) (x : List Char) (h : jsonWs c = false) :
    skipWs (c :: x) = c :: x := by
  unfold skipWs
  rw [List.dropWhile_cons_of_neg]
  simp [h]

theorem skipWs_ws_append (a x : List Char) (h : ∀ c ∈ a, jsonWs c = true) :
    skipWs (a ++ x) = skipWs x := by
  induction a with
  | nil => rfl
  | cons c cs ih =>
    show skipWs (c :: (cs ++ x)) = skipWs x
    unfold skipWs
    rw [List.dropWhile_cons_of_pos (by simp [h c (List.mem_cons_self c cs)])]
    exact ih (fun c' hc' => h c' (List.mem_cons_of_mem c hc'))

theorem nl_ws (l : Nat) : ∀ c ∈ nl l, jsonWs c = true := by
  intro c hc
  rw [nl] at hc
  rcases List.mem_cons.mp hc with rfl | hc2
  · rfl
  · rw [List.eq_of_mem_replicate hc2]
    rfl

theorem skipWs_nl_append (l : Nat) (x : List Char) :
    skipWs (nl l ++ x) = skipWs x :=
  skipWs_ws_append (nl l) x (nl_ws l)

/-! ### String escaping round-trip -/

theorem hexVal_hexDig (n : Nat) (h : n < 16) : hexVal (hexDig n) = some n := by
  interval_cases n <;> rfl

theorem parseStrBody_escChar (c : Char) (X : List Char) :
    parseStrBody (escChar c ++ X)
      = (parseStrBody X).map (fun r => (c :: r.1, r.2)) := by
  unfold escChar
  split_ifs with h1 h2 h3 h4 h5 h6 h7 h8
  · subst h1; rfl
  · subst h2; rfl
  · subst h3; rfl
  · subst h4; rfl
  · subst h5; rfl
  · subst h6; rfl
  · subst h7; rfl
  · show parseStrBody ('\\' :: 'u' :: '0' :: '0' :: hexDig (c.toNat / 16)
      :: hexDig (c.toNat % 16) :: X) = _
    rw [parseStrBody.eq_def]
    have e0 : hexVal '0' = some 0 := rfl
    simp only [e0, hexVal_hexDig (c.toNat / 16) (by omega),
      hexVal_hexDig (c.toNat % 16) (by omega)]
    have harith : 4096 * 0 + 256 * 0 + 16 * (c.toNat / 16) + c.toNat % 16
        = c.toNat := by omega
    simp only [harith, Char.ofNat_toNat,
      (by decide : (('\\' : Char) = '"') = False), if_false, ite_false,
      if_true, ite_true]
  · show parseStrBody (c :: X) = _
    rw [parseStrBody.eq_def]
    simp only [h1, h2, if_false, ite_false]

theorem parseStrBody_escape : ∀ (k rest : List Char),
    parseStrBody (escape k ++ ('"' :: rest)) = some (k, rest) := by
  intro k
  induction k with
  | nil =>
    intro rest
    show parseStrBody ('"' :: rest) = some ([], rest)
    rw [parseStrBody.eq_def]
    rfl
  | cons c cs ih =>
    intro rest
    show parseStrBody ((escChar c ++ escape cs) ++ ('"' :: rest)) = _
    rw [List.append_assoc, parseStrBody_escChar c (escape cs ++ '"' :: rest),
      ih rest]
    rfl

/-! ### Parser step lemmas -/

theorem dumpVal_head (lvl : Nat) (v : JVal) :
    ∃ c t, dumpVal lvl v = c :: t ∧ jsonWs c = false ∧ c ≠ ']' ∧
      c ≠ '\x7d' ∧ c ≠ ',' := by
  cases v with
  | jstr s => exact ⟨'"', _, rfl, by decide, by decide, by decide, by decide⟩
  | jarr vs =>
    cases vs with
    | nil => exact ⟨'[', _, rfl, by decide, by decide, by decide, by decide⟩
    | cons v vs => exact ⟨'[', _, rfl, by decide, by decide, by decide, by decide⟩
  | jobj ps =>
    cases ps with
    | nil => exact ⟨'\x7b', _, rfl, by decide, by decide, by decide, by decide⟩
    | cons p ps =>
      obtain ⟨k, v⟩ := p
      exact ⟨'\x7b', _, rfl, by decide, by decide, by decide, by decide⟩

theorem skipWs_dump (lvl : Nat) (v : JVal) (x : List Char) :
    skipWs (dumpVal lvl v ++ x) = dumpVal lvl v ++ x := by
  obtain ⟨c, t, he, hw, -, -, -⟩ := dumpVal_head lvl v
  rw [he]
  exact skipWs_cons_not c (t ++ x) hw

theorem parseVal_wsLead (f : Nat) (a x : List Char)
    (h : ∀ c ∈ a, jsonWs c = true) : parseVal f (a ++ x) = parseVal f x := by
  cases f with
  | zero => rfl
  | succ f =>
    rw [parseVal.eq_def]
    conv_rhs => rw [parseVal.eq_def]
    simp only [skipWs_ws_append a x h]

theorem parseMember_wsLead (f : Nat) (a x : List Char)
    (h : ∀ c ∈ a, jsonWs c = true) : parseMember f (a ++ x) = parseMember f x := by
  cases f with
  | zero => rfl
  | succ f =>
    rw [parseMember.eq_def]
    conv_rhs => rw [parseMember.eq_def]
    simp only [skipWs_ws_append a x h]

theorem parseArrTail_wsLead (f : Nat) (a x : List Char)
    (h : ∀ c ∈ a, jsonWs c = true) :
    parseArrTail f (a ++ x) = parseArrTail f x := by
  cases f with
  | zero => rfl
  | succ f =>
    rw [parseArrTail.eq_def]
    conv_rhs => rw [parseArrTail.eq_def]
    simp only [skipWs_ws_append a x h]

theorem parseObjTail_wsLead (f : Nat) (a x : List Char)
    (h : ∀ c ∈ a, jsonWs c = true) :
    parseObjTail f (a ++ x) = parseObjTail f x := by
  cases f with
  | zero => rfl
  | succ f =>
    rw [parseObjTail.eq_def]
    conv_rhs => rw [parseObjTail.eq_def]
    simp only [skipWs_ws_append a x h]

theorem parseVal_str (f : Nat) (Y : List Char) :
    parseVal (f + 1) ('"' :: Y)
      = (parseStrBody Y).map (fun r => (JVal.jstr r.1, r.2)) := by
  rw [parseVal.eq_def]
  rfl

theorem parseVal_arr (f : Nat) (Y : List Char) (c2 : Char) (r2 : List Char)
    (hY : skipWs Y = c2 :: r2) :
    parseVal (f + 1) ('[' :: Y)
      = if c2 = ']' then some (.jarr [], r2)
        else
          match parseVal f Y with
          | some (v, rest3) =>
            match parseArrTail f rest3 with
            | some (vs, rest4) => some (.jarr (v :: vs), rest4)
            | none => none
          | none => none := by
  rw [parseVal.eq_def]
  simp only [skipWs_cons_not '[' Y (by decide),
    (by decide : (('[' : Char) = '"') = False),
    (by decide : (('[' : Char) = '[') = True), if_false, ite_false,
    if_true, ite_true, hY]

theorem parseVal_obj (f : Nat) (Y : List Char) (c2 : Char) (r2 : List Char)
    (hY : skipWs Y = c2 :: r2) :
    parseVal (f + 1) ('\x7b' :: Y)
      = if c2 = '\x7d' then some (.jobj [], r2)
        else
          match parseMember f Y with
          | some (k, v, rest3) =>
            match parseObjTail f rest3 with
            | some (ps, rest4) => some (.jobj ((k, v) :: ps), rest4)
            | none => none
          | none => none := by
  rw [parseVal.eq_def]
  simp only [skipWs_cons_not '\x7b' Y (by decide),
    (by decide : (('\x7b' : Char) = '"') = False),
    (by decide : (('\x7b' : Char) = '[') = False),
    (by decide : (('\x7b' : Char) = '\x7b') = True), if_false, ite_false,
    if_true, ite_true, hY]

theorem parseMember_dump (f : Nat) (k : List Char) (Z : List Char) :
    parseMember (f + 1) ('"' :: (escape k ++ ('"' :: (':' :: ' ' :: Z))))
      = match parseVal f (' ' :: Z) with
        | some (v, r4) => some (k, v, r4)
        | none => none := by
  rw [parseMember.eq_def]
  simp only [skipWs_cons_not '"' (escape k ++ ('"' :: (':' :: ' ' :: Z))) (by decide),
    (by decide : (('"' : Char) = '"') = True), if_true, ite_true,
    parseStrBody_escape k (':' :: ' ' :: Z),
    skipWs_cons_not ':' (' ' :: Z) (by decide),
    (by decide : ((':' : Char) = ':') = True)]

theorem parseArrTail_close (f : Nat) (Y : List Char) :
    parseArrTail (f + 1) (']' :: Y) = some ([], Y) := by
  rw [parseArrTail.eq_def]
  rfl

theorem parseArrTail_comma (f : Nat) (Y : List Char) :
    parseArrTail (f + 1) (',' :: Y)
      = match parseVal f Y with
        | some (v, r2) =>
          match parseArrTail f r2 with
          | some (vs, r3) => some (v :: vs, r3)
          | none => none
        | none => none := by
  rw [parseArrTail.eq_def]
  rfl

theorem parseObjTail_close (f : Nat) (Y : List Char) :
    parseObjTail (f + 1) ('\x7d' :: Y) = some ([], Y) := by
  rw [parseObjTail.eq_def]
  rfl

theorem parseObjTail_comma (f : Nat) (Y : List Char) :
    parseObjTail (f + 1) (',' :: Y)
      = match parseMember f Y with
        | some (k, v, r2) =>
          match parseObjTail f r2 with
          | some (ps, r3) => some ((k, v) :: ps, r3)
          | none => none
        | none => none := by
  rw [parseObjTail.eq_def]
  rfl

/-! ### The round-trip induction -/

theorem parse_dump_aux (f : Nat) :
    (∀ v lvl rest, jmeasure v ≤ f →
      parseVal f (dumpVal lvl v ++ rest) = some (v, rest)) ∧
    (∀ (k : List Char) v lvl rest, jmeasure v + 1 ≤ f →
      parseMember f (dumpStr k ++ (':' :: ' ' :: (dumpVal lvl v ++ rest)))
        = some (k, v, rest)) ∧
    (∀ vs lvl l2 rest, jmeasureArr vs ≤ f →
      parseArrTail f (dumpArrTail lvl vs ++ (nl l2 ++ (']' :: rest)))
        = some (vs, rest)) ∧
    (∀ ps lvl l2 rest, jmeasureObj ps ≤ f →
      parseObjTail f (dumpObjTail lvl ps ++ (nl l2 ++ ('\x7d' :: rest)))
        = some (ps, rest)) := by
  induction f with
  | zero =>
    refine ⟨fun v lvl rest hm => ?_, fun k v lvl rest hm => ?_,
      fun vs lvl l2 rest hm => ?_, fun ps lvl l2 rest hm => ?_⟩
    · exact absurd hm (by have := jmeasure_pos v; omega)
    · exact absurd hm (by have := jmeasure_pos v; omega)
    · exact absurd hm (by have := jmeasureArr_pos vs; omega)
    · exact absurd hm (by have := jmeasureObj_pos ps; omega)
  | succ f ih =>
    obtain ⟨ih1, ih2, ih3, ih4⟩ := ih
    refine ⟨fun v lvl rest hm => ?_, fun k v lvl rest hm => ?_,
      fun vs lvl l2 rest hm => ?_, fun ps lvl l2 rest hm => ?_⟩
    · cases v with
      | jstr s =>
        have e : dumpVal lvl (.jstr s) ++ rest
            = '"' :: (escape s ++ ('"' :: rest)) := by
          show ('"' :: (escape s ++ ['"'])) ++ rest = _
          simp [List.append_assoc]
        rw [e, parseVal_str, parseStrBody_escape]
        rfl
      | jarr vs =>
        cases vs with
        | nil =>
          have e : dumpVal lvl (.jarr []) ++ rest = '[' :: (']' :: rest) := rfl
          rw [e, parseVal_arr f (']' :: rest) ']' rest
            (skipWs_cons_not ']' rest (by decide)), if_pos rfl]
        | cons v vs' =>
          simp only [jmeasure, jmeasureArr] at hm
          obtain ⟨c, t, he, hw, hnb, -, -⟩ := dumpVal_head (lvl + 1) v
          have e : dumpVal lvl (.jarr (v :: vs')) ++ rest
              = '[' :: (nl (lvl + 1) ++ (dumpVal (lvl + 1) v ++
                  (dumpArrTail (lvl + 1) vs' ++ (nl lvl ++ (']' :: rest))))) := by
            show ('[' :: (nl (lvl + 1) ++ dumpVal (lvl + 1) v
              ++ dumpArrTail (lvl + 1) vs' ++ nl lvl ++ [']'])) ++ rest = _
            simp [List.append_assoc]
          have hY : skipWs (nl (lvl + 1) ++ (dumpVal (lvl + 1) v ++
              (dumpArrTail (lvl + 1) vs' ++ (nl lvl ++ (']' :: rest)))))
              = c :: (t ++ (dumpArrTail (lvl + 1) vs' ++ (nl lvl ++ (']' :: rest)))) := by
            rw [skipWs_nl_append, he]
            exact skipWs_cons_not c _ hw
          rw [e, parseVal_arr f _ c _ hY, if_neg hnb]
          have hv : parseVal f (nl (lvl + 1) ++ (dumpVal (lvl + 1) v ++
              (dumpArrTail (lvl + 1) vs' ++ (nl lvl ++ (']' :: rest)))))
              = some (v, dumpArrTail (lvl + 1) vs' ++ (nl lvl ++ (']' :: rest))) := by
            rw [parseVal_wsLead f (nl (lvl + 1)) _ (nl_ws (lvl + 1))]
            exact ih1 v (lvl + 1) _ (by omega)
          rw [hv]
          have ht : parseArrTail f (dumpArrTail (lvl + 1) vs'
              ++ (nl lvl ++ (']' :: rest))) = some (vs', rest) :=
            ih3 vs' (lvl + 1) lvl rest (by omega)
          simp only [ht]
      | jobj ps =>
        cases ps with
        | nil =>
          have e : dumpVal lvl (.jobj []) ++ rest = '\x7b' :: ('\x7d' :: rest) := rfl
          rw [e, parseVal_obj f ('\x7d' :: rest) '\x7d' rest
            (skipWs_cons_not '\x7d' rest (by decide)), if_pos rfl]
        | cons p ps' =>
          obtain ⟨k, v⟩ := p
          simp only [jmeasure, jmeasureObj] at hm
          have hops := jmeasureObj_pos ps'
          have e : dumpVal lvl (.jobj ((k, v) :: ps')) ++ rest
              = '\x7b' :: (nl (lvl + 1) ++ (dumpStr k ++ (':' :: ' ' ::
                  (dumpVal (lvl + 1) v ++ (dumpObjTail (lvl + 1) ps'
                    ++ (nl lvl ++ ('\x7d' :: rest))))))) := by
            show ('\x7b' :: (nl (lvl + 1) ++ dumpStr k ++ ':' :: ' ' ::
              dumpVal (lvl + 1) v ++ dumpObjTail (lvl + 1) ps'
              ++ nl lvl ++ ['\x7d'])) ++ rest = _
            simp [List.append_assoc, dumpStr]
          have hY : skipWs (nl (lvl + 1) ++ (dumpStr k ++ (':' :: ' ' ::
              (dumpVal (lvl + 1) v ++ (dumpObjTail (lvl + 1) ps'
                ++ (nl lvl ++ ('\x7d' :: rest)))))))
              = '"' :: ((escape k ++ ['"']) ++ (':' :: ' ' ::
                (dumpVal (lvl + 1) v ++ (dumpObjTail (lvl + 1) ps'
                  ++ (nl lvl ++ ('\x7d' :: rest)))))) := by
            rw [skipWs_nl_append]
            exact skipWs_cons_not '"' _ (by decide)
          rw [e, parseVal_obj f _ '"' _ hY, if_neg (by decide)]
          have hmem : parseMember f (nl (lvl + 1) ++ (dumpStr k ++ (':' :: ' ' ::
              (dumpVal (lvl + 1) v ++ (dumpObjTail (lvl + 1) ps'
                ++ (nl lvl ++ ('\x7d' :: rest)))))))
              = some (k, v, dumpObjTail (lvl + 1) ps'
                  ++ (nl lvl ++ ('\x7d' :: rest))) := by
            rw [parseMember_wsLead f (nl (lvl + 1)) _ (nl_ws (lvl + 1))]
            exact ih2 k v (lvl + 1) _ (by omega)
          rw [hmem]
          have ht : parseObjTail f (dumpObjTail (lvl + 1) ps'
              ++ (nl lvl ++ ('\x7d' :: rest))) = some (ps', rest) :=
            ih4 ps' (lvl + 1) lvl rest (by omega)
          simp only [ht]
    · have e : dumpStr k ++ (':' :: ' ' :: (dumpVal lvl v ++ rest))
          = '"' :: (escape k ++ ('"' :: (':' :: ' ' :: (dumpVal lvl v ++ rest)))) := by
        show ('"' :: (escape k ++ ['"'])) ++ _ = _
        simp [List.append_assoc]
      rw [e, parseMember_dump]
      have hv : parseVal f (' ' :: (dumpVal lvl v ++ rest)) = some (v, rest) := by
        rw [show (' ' :: (dumpVal lvl v ++ rest))
            = [' '] ++ (dumpVal lvl v ++ rest) from rfl,
          parseVal_wsLead f [' '] _ (by intro c hc; simp at hc; subst hc; rfl)]
        exact ih1 v lvl rest (by omega)
      rw [hv]
    · cases vs with
      | nil =>
        show parseArrTail (f + 1) ([] ++ (nl l2 ++ (']' :: rest))) = some ([], rest)
        rw [List.nil_append,
          parseArrTail_wsLead (f + 1) (nl l2) _ (nl_ws l2),
          parseArrTail_close]
      | cons v vs' =>
        simp only [jmeasureArr] at hm
        have e : dumpArrTail lvl (v :: vs') ++ (nl l2 ++ (']' :: rest))
            = ',' :: (nl lvl ++ (dumpVal lvl v ++ (dumpArrTail lvl vs'
                ++ (nl l2 ++ (']' :: rest))))) := by
          show (',' :: (nl lvl ++ dumpVal lvl v ++ dumpArrTail lvl vs')) ++ _ = _
          simp [List.append_assoc]
        rw [e, parseArrTail_comma]
        have hv : parseVal f (nl lvl ++ (dumpVal lvl v ++ (dumpArrTail lvl vs'
            ++ (nl l2 ++ (']' :: rest)))))
            = some (v, dumpArrTail lvl vs' ++ (nl l2 ++ (']' :: rest))) := by
          rw [parseVal_wsLead f (nl lvl) _ (nl_ws lvl)]
          exact ih1 v lvl _ (by omega)
        rw [hv]
        have ht : parseArrTail f (dumpArrTail lvl vs' ++ (nl l2 ++ (']' :: rest)))
            = some (vs', rest) := ih3 vs' lvl l2 rest (by omega)
        simp only [ht]
    · cases ps with
      | nil =>
        show parseObjTail (f + 1) ([] ++ (nl l2 ++ ('\x7d' :: rest)))
          = some ([], rest)
        rw [List.nil_append,
          parseObjTail_wsLead (f + 1) (nl l2) _ (nl_ws l2),
          parseObjTail_close]
      | cons p ps' =>
        obtain ⟨k, v⟩ := p
        simp only [jmeasureObj] at hm
        have hops := jmeasureObj_pos ps'
        have e : dumpObjTail lvl ((k, v) :: ps') ++ (nl l2 ++ ('\x7d' :: rest))
            = ',' :: (nl lvl ++ (dumpStr k ++ (':' :: ' ' :: (dumpVal lvl v
                ++ (dumpObjTail lvl ps' ++ (nl l2 ++ ('\x7d' :: rest))))))) := by
          show (',' :: (nl lvl ++ dumpStr k ++ ':' :: ' ' :: dumpVal lvl v
            ++ dumpObjTail lvl ps')) ++ _ = _
          simp [List.append_assoc]
        rw [e, parseObjTail_comma]
        have hmem : parseMember f (nl lvl ++ (dumpStr k ++ (':' :: ' ' ::
            (dumpVal lvl v ++ (dumpObjTail lvl ps'
              ++ (nl l2 ++ ('\x7d' :: rest)))))))
            = some (k, v, dumpObjTail lvl ps' ++ (nl l2 ++ ('\x7d' :: rest))) := by
          rw [parseMember_wsLead f (nl lvl) _ (nl_ws lvl)]
          exact ih2 k v lvl _ (by omega)
        rw [hmem]
        have ht : parseObjTail f (dumpObjTail lvl ps'
            ++ (nl l2 ++ ('\x7d' :: rest))) = some (ps', rest) :=
          ih4 ps' lvl l2 rest (by omega)
        simp only [ht]

theorem nl_length (l : Nat) : (nl l).length = 4 * l + 1 := by
  simp [nl]

theorem jmeasure_le_dump (n : Nat) :
    (∀ v lvl, jmeasure v ≤ n → jmeasure v ≤ (dumpVal lvl v).length) ∧
    (∀ vs lvl, jmeasureArr vs ≤ n →
      jmeasureArr vs ≤ (dumpArrTail lvl vs).length + 1) ∧
    (∀ ps lvl, jmeasureObj ps ≤ n →
      jmeasureObj ps ≤ (dumpObjTail lvl ps).length + 1) := by
  induction n with
  | zero =>
    refine ⟨fun v lvl hm => ?_, fun vs lvl hm => ?_, fun ps lvl hm => ?_⟩
    · exact absurd hm (by have := jmeasure_pos v; omega)
    · exact absurd hm (by have := jmeasureArr_pos vs; omega)
    · exact absurd hm (by have := jmeasureObj_pos ps; omega)
  | succ n ih =>
    obtain ⟨ih1, ih2, ih3⟩ := ih
    refine ⟨fun v lvl hm => ?_, fun vs lvl hm => ?_, fun ps lvl hm => ?_⟩
    · cases v with
      | jstr s =>
        show jmeasure (.jstr s) ≤ ('"' :: (escape s ++ ['"'])).length
        simp [jmeasure]
      | jarr vs =>
        cases vs with
        | nil => simp [jmeasure, jmeasureArr, dumpVal]
        | cons v vs' =>
          simp only [jmeasure, jmeasureArr] at hm ⊢
          have h1 := ih1 v (lvl + 1) (by omega)
          have h2 := ih2 vs' (lvl + 1) (by omega)
          show 1 + (1 + jmeasure v + jmeasureArr vs')
            ≤ ('[' :: (nl (lvl + 1) ++ dumpVal (lvl + 1) v
                ++ dumpArrTail (lvl + 1) vs' ++ nl lvl ++ [']'])).length
          simp only [List.length_cons, List.length_append, nl_length,
            List.length_singleton]
          omega
      | jobj ps =>
        cases ps with
        | nil => simp [jmeasure, jmeasureObj, dumpVal]
        | cons p ps' =>
          obtain ⟨k, v⟩ := p
          simp only [jmeasure, jmeasureObj] at hm ⊢
          have h1 := ih1 v (lvl + 1) (by omega)
          have h2 := ih3 ps' (lvl + 1) (by omega)
          show 1 + (1 + jmeasure v + jmeasureObj ps')
            ≤ ('\x7b' :: (nl (lvl + 1) ++ dumpStr k ++ ':' :: ' ' ::
                dumpVal (lvl + 1) v ++ dumpObjTail (lvl + 1) ps'
                ++ nl lvl ++ ['\x7d'])).length
          simp only [List.length_cons, List.length_append, nl_length,
            List.length_singleton]
          omega
    · cases vs with
      | nil => simp [jmeasureArr, dumpArrTail]
      | cons v vs' =>
        simp only [jmeasureArr] at hm ⊢
        have h1 := ih1 v lvl (by omega)
        have h2 := ih2 vs' lvl (by omega)
        show 1 + jmeasure v + jmeasureArr vs'
          ≤ (',' :: (nl lvl ++ dumpVal lvl v ++ dumpArrTail lvl vs')).length + 1
        simp only [List.length_cons, List.length_append, nl_length]
        omega
    · cases ps with
      | nil => simp [jmeasureObj, dumpObjTail]
      | cons p ps' =>
        obtain ⟨k, v⟩ := p
        simp only [jmeasureObj] at hm ⊢
        have h1 := ih1 v lvl (by omega)
        have h2 := ih3 ps' lvl (by omega)
        show 1 + jmeasure v + jmeasureObj ps'
          ≤ (',' :: (nl lvl ++ dumpStr k ++ ':' :: ' ' :: dumpVal lvl v
              ++ dumpObjTail lvl ps')).length + 1
        simp only [List.length_cons, List.length_append, nl_length]
        omega

/-- Serializing any JSON value and parsing the result gives back the value. -/
theorem json_roundtrip (v : JVal) : json_loads (json_dumps v) = some v := by
  have hlen : jmeasure v ≤ (dumpVal 0 v).length :=
    (jmeasure_le_dump (jmeasure v)).1 v 0 le_rfl
  have h := (parse_dump_aux ((dumpVal 0 v).length + 1)).1 v 0 [] (by omega)
  rw [List.append_nil] at h
  unfold json_loads json_dumps
  rw [h]
  rfl

/-- C7: for every record set, serializing it with `json.dump(breweries, f,
ensure_ascii=False, indent=4)` as `save_data` does and reading the file back
with `json.load` as `update_breweries_with_menu_urls` does yields the same
records, with the same field values and the same ordering. -/
theorem save_data_roundtrip (records : List Rec) :
    json_loads (json_dumps (JVal.jarr (records.map JVal.jobj)))
      = some (JVal.jarr (records.map JVal.jobj)) :=
  json_roundtrip (JVal.jarr (records.map JVal.jobj))

end BCB
